import Mathlib

/-!
Verification of the boustrophedon cellular decomposition in
`pathplanner/bdc.py`, against its natural-language specification.

The Python code works on `networkx.DiGraph`s whose nodes carry a
`points` attribute (a float pair) and whose edges carry an integer
`weight` (1 = outer boundary, 2 = hole boundary, 3/4 = bridge edges
synthesized at split/merge events).  We embed such a graph as a list of
`(id, point)` pairs plus a list of weighted directed edges; float
coordinates become exact rationals.  A Python exception or assertion
failure is modelled as `none` / `.error`.
-/

namespace Bdc

set_option maxRecDepth 40000

attribute [local semireducible] Rat.mul Rat.add Rat.sub Rat.inv

/-- A planar point with exact rational coordinates (embedding of the
numpy float pairs used by `bdc.py`). -/
structure Pt where
  x : ℚ
  y : ℚ
deriving DecidableEq

/-- A directed edge `src -> tgt` carrying the `weight` attribute. -/
structure DEdge where
  src : ℤ
  tgt : ℤ
  w : ℤ
deriving DecidableEq

/-- Embedding of an `nx.DiGraph` with `points` node attributes and
`weight` edge attributes.  Lists keep networkx's insertion order, which
is the iteration order of `H.nodes` / `H.edges` / `H.adj`. -/
structure Digraph where
  nodes : List (ℤ × Pt)
  edges : List DEdge
deriving DecidableEq

/-- `H.nodes[v]['points']`.  All uses in the claims look up ids that are
present; a missing id (a Python `KeyError`) falls back to the origin. -/
def getPt (H : Digraph) (v : ℤ) : Pt :=
  match H.nodes.find? (fun q => q.1 == v) with
  | some q => q.2
  | none => ⟨0, 0⟩

/-- The weight `H[u][v]['weight']` of the directed edge `(u, v)`, when
that edge exists (`none` models the `KeyError` branch of a `try`). -/
def edgeWeight (H : Digraph) (u v : ℤ) : Option ℤ :=
  (H.edges.find? (fun e => e.src == u && e.tgt == v)).map DEdge.w

/-- The successors of `v` (the iteration `for s in H.successors(v)` /
`H.adj[v]`), with the weight of the connecting edge, in edge insertion
order. -/
def succsOf (H : Digraph) (v : ℤ) : List (ℤ × ℤ) :=
  H.edges.filterMap (fun e => if e.src == v then some (e.tgt, e.w) else none)

/-- The predecessors of `v` (`for p in H.predecessors(v)`), with the
weight of the connecting edge. -/
def predsOf (H : Digraph) (v : ℤ) : List (ℤ × ℤ) :=
  H.edges.filterMap (fun e => if e.tgt == v then some (e.src, e.w) else none)

/-- The `Event` enum of `bdc.py`. -/
inductive Event where
  | CLOSE
  | OPEN
  | SPLIT
  | MERGE
  | INFLECTION
  | INTERSECT
deriving DecidableEq

/-- `qcross(H, vA, v, vB)`: the quick cross product test.  Vectors `a`
and `b` point from the neighbors to `v`; the result is
`a[0]*b[1] - b[0]*a[1] >= 0`. -/
def qcross (H : Digraph) (vA v vB : ℤ) : Bool :=
  let p1 := getPt H vA
  let p2 := getPt H vB
  let pv := getPt H v
  let ax := pv.x - p1.x
  let ay := pv.y - p1.y
  let bx := pv.x - p2.x
  let by_ := pv.y - p2.y
  decide (ax * by_ - bx * ay ≥ 0)

/-- The neighbor-selection loop of `lower_upper`:
`for p in H.predecessors(v): vA = p; if w == 1 or w == 2: vA = p`.
The unconditional `vA = p` precedes the weight test, so the weight
filter never filters anything and the loop keeps the last neighbor in
iteration order; `none` models the `assert vA is not None` failure on an
empty neighbor list. -/
def pickNeighbor (l : List (ℤ × ℤ)) : Option ℤ :=
  l.foldl (fun _ pw => some pw.1) none

/-- `lower_upper(H, v)`: returns `(lower, upper, above)`; when `above`
(the cross product is nonnegative) the successor is stored into lower
and the predecessor into upper. -/
def lower_upper (H : Digraph) (v : ℤ) : Option (ℤ × ℤ × Bool) :=
  match pickNeighbor (predsOf H v), pickNeighbor (succsOf H v) with
  | some vA, some vB =>
      let above := qcross H vA v vB
      if above then some (vB, vA, above) else some (vA, vB, above)
  | _, _ => none

/-- `check_lu(H, v)`: classify the event at vertex `v`; `none` models
the `ValueError` raised when no branch matches. -/
def check_lu (H : Digraph) (v : ℤ) : Option Event :=
  match lower_upper H v with
  | none => none
  | some (l, u, above) =>
    let lp := getPt H l
    let up := getPt H u
    let vp := getPt H v
    if lp.x > vp.x ∧ up.x > vp.x then
      some (if above then Event.OPEN else Event.SPLIT)
    else if lp.x < vp.x ∧ up.x < vp.x then
      some (if above then Event.CLOSE else Event.MERGE)
    else if lp.x > vp.x ∧ up.x < vp.x then
      some Event.INFLECTION
    else if lp.x < vp.x ∧ up.x > vp.x then
      some Event.INFLECTION
    else
      none

/-- The axis-aligned square of the specification scenario, vertices
listed counter-clockwise exactly as written there:
`[(0,0),(4,0),(4,4),(0,4)]`, boundary edges `0→1→2→3→0` of weight 1. -/
def squareSpec : Digraph :=
  { nodes := [(0, ⟨0, 0⟩), (1, ⟨4, 0⟩), (2, ⟨4, 4⟩), (3, ⟨0, 4⟩)]
  , edges := [⟨0, 1, 1⟩, ⟨1, 2, 1⟩, ⟨2, 3, 1⟩, ⟨3, 0, 1⟩] }

/-- `check_edge(H, v, (e1, e2))`: do the endpoint x-coordinates of the
edge strictly straddle `v`'s x-coordinate? -/
def check_edge (H : Digraph) (v : ℤ) (e1 e2 : ℤ) : Bool :=
  let p1 := getPt H e1
  let p2 := getPt H e2
  let pv := getPt H v
  if p1.x > pv.x ∧ p2.x < pv.x then true
  else if p1.x < pv.x ∧ p2.x > pv.x then true
  else false

/-- `intersect_vertical_line(p1, p2, pv)`: interpolation parameter
`m = |pv.x - p1.x| / |p2.x - p1.x|` and collision point
`(pv.x, m * (p2.y - p1.y) + p1.y)`. -/
def intersect_vertical_line (p1 p2 pv : Pt) : Pt :=
  let m := |pv.x - p1.x| / |p2.x - p1.x|
  ⟨pv.x, m * (p2.y - p1.y) + p1.y⟩

/-- A collision record of `get_intersects`: origin vertex `vx`, the
collision point `pt`, the collided edge `(e1, e2)` and its weight. -/
structure Collision where
  vx : ℤ
  pt : Pt
  e1 : ℤ
  e2 : ℤ
  weight : ℤ
deriving DecidableEq

/-- The collision dict built for one colliding edge inside
`get_intersects`. -/
def mkCol (H : Digraph) (v : ℤ) (e : DEdge) : Collision :=
  { vx := v
  , pt := intersect_vertical_line (getPt H e.src) (getPt H e.tgt) (getPt H v)
  , e1 := e.src
  , e2 := e.tgt
  , weight := e.w }

/-- The `collisions` list of `get_intersects`: every edge of `H` that
passes `check_edge` contributes one record, in edge order. -/
def collisionsAt (H : Digraph) (v : ℤ) : List Collision :=
  H.edges.filterMap (fun e =>
    if check_edge H v e.src e.tgt then some (mkCol H v e) else none)

/-- `ydiff(c) = c['pt'][1] - y`: signed y-difference of a collision
point from the probing vertex. -/
def ydiff (y : ℚ) (c : Collision) : ℚ := c.pt.y - y

/-- One step of Python's `min(..., key=ydiff)`: keep the earlier element
unless the new one is strictly smaller (ties keep the first). -/
def minStep (y : ℚ) (acc : Option Collision) (c : Collision) : Option Collision :=
  match acc with
  | none => some c
  | some b => if ydiff y c < ydiff y b then some c else some b

/-- One step of Python's `max(..., key=ydiff)`. -/
def maxStep (y : ℚ) (acc : Option Collision) (c : Collision) : Option Collision :=
  match acc with
  | none => some c
  | some b => if ydiff y c > ydiff y b then some c else some b

/-- `min(l, key=ydiff, default=None)`. -/
def pickMin (y : ℚ) (l : List Collision) : Option Collision :=
  l.foldl (minStep y) none

/-- `max(l, key=ydiff, default=None)`. -/
def pickMax (y : ℚ) (l : List Collision) : Option Collision :=
  l.foldl (maxStep y) none

/-- `get_intersects(H, v)`: collect all collisions of the vertical probe
line through `v`, then return the nearest collision strictly above `v`
and the nearest strictly below. -/
def get_intersects (H : Digraph) (v : ℤ) : Option Collision × Option Collision :=
  let cols := collisionsAt H v
  let y := (getPt H v).y
  if cols.isEmpty then (none, none)
  else
    (pickMin y (cols.filter (fun c => decide (c.pt.y > y))),
     pickMax y (cols.filter (fun c => decide (c.pt.y < y))))

/-- The strict-straddle condition of the probe, spelled out. -/
def straddles (H : Digraph) (v : ℤ) (e : DEdge) : Prop :=
  ((getPt H e.src).x > (getPt H v).x ∧ (getPt H e.tgt).x < (getPt H v).x) ∨
  ((getPt H e.src).x < (getPt H v).x ∧ (getPt H e.tgt).x > (getPt H v).x)

instance (H : Digraph) (v : ℤ) (e : DEdge) : Decidable (straddles H v e) := by
  unfold straddles; infer_instance

/-- Modelled from the spec: the linear interpolation of the edge
endpoints at parameter `t = (vx - p1.x) / (p2.x - p1.x)`, i.e. at the
probe's x-coordinate. -/
def lerpAtX (p1 p2 : Pt) (vx : ℚ) : Pt :=
  let t := (vx - p1.x) / (p2.x - p1.x)
  ⟨p1.x + t * (p2.x - p1.x), p1.y + t * (p2.y - p1.y)⟩

/-- A probe scenario: vertex 0 at the origin; three straddling boundary
edges (two above, one below) and one vertical bridge pair `0 <-> 7`. -/
def probeH : Digraph :=
  { nodes := [(0, ⟨0, 0⟩), (1, ⟨-1, 1⟩), (2, ⟨1, 3⟩), (3, ⟨-2, -1⟩),
              (4, ⟨2, -5⟩), (5, ⟨1, 5⟩), (6, ⟨-1, 7⟩), (7, ⟨0, 9⟩)]
  , edges := [⟨1, 2, 1⟩, ⟨3, 4, 1⟩, ⟨5, 6, 1⟩, ⟨0, 7, 4⟩, ⟨7, 0, 3⟩] }

/-- Witness for C10: the edge `(1, 2)` of the specification square (from
`(4,0)` to `(4,4)`) does not straddle vertex 0, but the edge from
`(4,0)` to `(0,4)` in the probe graph below does; we use a small graph
with one straddling edge. -/
def probeW : Digraph :=
  { nodes := [(0, ⟨1, 0⟩), (1, ⟨0, 2⟩), (2, ⟨3, 3⟩)]
  , edges := [⟨1, 2, 1⟩] }

/-- The list of node ids of `H`, in insertion order. -/
def nodeIds (H : Digraph) : List ℤ :=
  H.nodes.map Prod.fst

/-- `max(H.nodes())` (Python's `max` needs a nonempty list; the empty
case never occurs in the sweep and defaults to 0 here). -/
def maxId : List (ℤ × Pt) → ℤ
  | [] => 0
  | [q] => q.1
  | q :: r :: rest => max q.1 (maxId (r :: rest))

/-- `H.add_node(i, points=p)`: updates the point attribute if the id is
present, inserts a fresh node otherwise. -/
def add_node (H : Digraph) (i : ℤ) (p : Pt) : Digraph :=
  if H.nodes.any (fun q => q.1 == i) then
    { H with nodes := H.nodes.map (fun q => if q.1 == i then (i, p) else q) }
  else
    { H with nodes := H.nodes ++ [(i, p)] }

/-- Drop the directed edge `(u, v)`; a `DiGraph` stores at most one edge
per ordered pair, so this is `H.remove_edge(u, v)` (which silently keeps
the graph unchanged here when the pair is absent; the surgery only
removes pairs that are present). -/
def removeEdgePair (edges : List DEdge) (u v : ℤ) : List DEdge :=
  edges.filter (fun e => !(e.src == u && e.tgt == v))

/-- `H.add_edge(u, v, weight=w)`: replaces the attributes of an existing
`(u, v)` edge, otherwise inserts the new edge. -/
def add_edge (H : Digraph) (u v w : ℤ) : Digraph :=
  { H with edges := removeEdgePair H.edges u v ++ [⟨u, v, w⟩] }

/-- The surgery of `splitmerge_points` for the collision above `v`:
fresh vertex `ai` at the collision point, the bridge pair
`(ai, v, 3)` / `(v, ai, 4)`, the two halves of the collided edge with
its inherited weight, and removal of the collided edge. -/
def splitmerge_above (H : Digraph) (v : ℤ) (a : Collision) : Digraph :=
  let ai := maxId H.nodes + 1
  let H1 := add_node H ai a.pt
  let H2 := add_edge H1 ai v 3
  let H3 := add_edge H2 v ai 4
  let H4 := add_edge H3 a.e1 ai a.weight
  let H5 := add_edge H4 ai a.e2 a.weight
  { H5 with edges := removeEdgePair H5.edges a.e1 a.e2 }

/-- The surgery of `splitmerge_points` for the collision below `v`; the
bridge pair is oriented the other way, `(v, bi, 3)` / `(bi, v, 4)`. -/
def splitmerge_below (H : Digraph) (v : ℤ) (b : Collision) : Digraph :=
  let bi := maxId H.nodes + 1
  let H1 := add_node H bi b.pt
  let H2 := add_edge H1 v bi 3
  let H3 := add_edge H2 bi v 4
  let H4 := add_edge H3 b.e1 bi b.weight
  let H5 := add_edge H4 bi b.e2 b.weight
  { H5 with edges := removeEdgePair H5.edges b.e1 b.e2 }

/-- `splitmerge_points(H, v)`: run both probes once on the incoming
graph, then apply the surgery for whichever collisions were found.  A
probe that found nothing (`None`) is skipped silently — the source has
no raise on this path. -/
def splitmerge_points (H : Digraph) (v : ℤ) : Digraph :=
  let ab := get_intersects H v
  let H1 := match ab.1 with
    | some a => splitmerge_above H v a
    | none => H
  match ab.2 with
  | some b => splitmerge_below H1 v b
  | none => H1

/-- Does every vertex have exactly one `BOUNDARY` predecessor and one
`BOUNDARY` successor (the closed-polygon invariant of the data model)? -/
def boundaryClosed (H : Digraph) : Bool :=
  H.nodes.all (fun q =>
    ((predsOf H q.1).filter (fun pw => pw.2 == 1 || pw.2 == 2)).length == 1 &&
    ((succsOf H q.1).filter (fun pw => pw.2 == 1 || pw.2 == 2)).length == 1)

/-- A closed quadrilateral (vertices `(0,0), (2,-1), (3,0), (2,1)`) whose
leftmost vertex is classified SPLIT even though no edge straddles its
x-coordinate, so both probes come back empty. -/
def P4 : Digraph :=
  { nodes := [(0, ⟨0, 0⟩), (1, ⟨2, -1⟩), (2, ⟨3, 0⟩), (3, ⟨2, 1⟩)]
  , edges := [⟨0, 1, 1⟩, ⟨1, 2, 1⟩, ⟨2, 3, 1⟩, ⟨3, 0, 1⟩] }

/-- `rcross(H, u, v, w)` normalizes both edge vectors before taking the
cross product, so its exact value is `q / sqrt n` with `q` the raw cross
product and `n` the product of the squared vector norms; we carry the
pair `(q, n)` and compare these values exactly with `cvalLt`. -/
def rcrossQ (H : Digraph) (u v w : ℤ) : ℚ × ℚ :=
  let pu := getPt H u
  let pv := getPt H v
  let pw := getPt H w
  let ax := pv.x - pu.x
  let ay := pv.y - pu.y
  let bx := pw.x - pv.x
  let by_ := pw.y - pv.y
  (ax * by_ - ay * bx, (ax ^ 2 + ay ^ 2) * (bx ^ 2 + by_ ^ 2))

/-- Decides `c.1 / sqrt c.2 < d.1 / sqrt d.2` for positive `c.2`, `d.2`
using rational arithmetic only: compare signs first, then squares. -/
def cvalLt (c d : ℚ × ℚ) : Bool :=
  if c.1 < 0 then
    if 0 ≤ d.1 then true else decide (d.1 ^ 2 * c.2 < c.1 ^ 2 * d.2)
  else
    if d.1 < 0 then false else decide (c.1 ^ 2 * d.2 < d.1 ^ 2 * c.2)

/-- `cvals.sort(key=cvalsort); best = cvals[0][0]`: the first candidate
with minimal cross value (Python's sort is stable, so of equal keys the
earliest stays in front); `none` models the IndexError raised when the
candidate list is empty. -/
def chooseBest (l : List (ℤ × (ℚ × ℚ))) : Option ℤ :=
  (l.foldl (fun acc c =>
    match acc with
    | none => some c
    | some b => if cvalLt c.2 b.2 then some c else some b) none).map Prod.fst

/-- The candidates of one walk step: successors of `node` other than the
vertex just arrived from, each with its `rcross` value. -/
def stepCandidates (H : Digraph) (prev node : ℤ) : List (ℤ × (ℚ × ℚ)) :=
  (succsOf H node).filterMap (fun cw =>
    if cw.1 == prev then none else some (cw.1, rcrossQ H prev node cw.1))

/-- The `while not path_end` walk of `append_cell`, with explicit fuel
standing in for the unbounded loop (`none` = no candidate at some step,
or the loop would not finish within `fuel` steps).  Returns the recorded
path and the final `prev_node`, which the source carries over into the
walk for the next `path_start`. -/
def walkLoop (H : Digraph) (ps : ℤ) : ℕ → ℤ → ℤ → List ℤ → Option (List ℤ × ℤ)
  | 0, _, _, _ => none
  | fuel + 1, prev, node, path =>
    match chooseBest (stepCandidates H prev node) with
    | none => none
    | some best =>
      if best == ps then some (path ++ [best], node)
      else walkLoop H ps fuel node best (path ++ [best])

/-- Python `frozenset(a) == frozenset(b)`. -/
def sameVertexSet (a b : List ℤ) : Bool :=
  a.all (fun x => b.contains x) && b.all (fun x => a.contains x)

/-- One iteration of the `for path_start in H.adj[v]` loop of
`append_cell`: run the walk from this start, then record the path unless
a recorded cell already has the same vertex set. -/
def cellStep (H : Digraph) (fuel : ℕ) (st : Option (List (List ℤ) × ℤ))
    (sw : ℤ × ℤ) : Option (List (List ℤ) × ℤ) :=
  match st with
  | none => none
  | some (cells, prev) =>
    match walkLoop H sw.1 fuel prev sw.1 [] with
    | none => none
    | some (path, prevOut) =>
      some (if cells.any (fun c => sameVertexSet c path) then cells
            else cells ++ [path], prevOut)

/-- `append_cell(H, v, cells)`: walk once from every successor of `v`
(the `prev_node` of one walk carries over into the next, as in the
source) and collect the deduplicated cells. -/
def append_cell (H : Digraph) (v : ℤ) (cells0 : List (List ℤ)) (fuel : ℕ) :
    Option (List (List ℤ)) :=
  ((succsOf H v).foldl (cellStep H fuel) (some (cells0, v))).map Prod.fst

/-- Recorded cells are pairwise distinct as unordered vertex sets. -/
def pairwiseNewSets (cells : List (List ℤ)) : Prop :=
  List.Pairwise (fun a b => sameVertexSet a b = false) cells

/-- Two triangles sharing vertex 0 (a bowtie): `0→1→2→0` on the left and
`0→3→4→0` on the right, all tagged as boundary edges. -/
def bowtie : Digraph :=
  { nodes := [(0, ⟨0, 0⟩), (1, ⟨-2, 1⟩), (2, ⟨-2, -1⟩), (3, ⟨2, -1⟩), (4, ⟨2, 1⟩)]
  , edges := [⟨0, 1, 1⟩, ⟨1, 2, 1⟩, ⟨2, 0, 1⟩, ⟨0, 3, 1⟩, ⟨3, 4, 1⟩, ⟨4, 0, 1⟩] }

/-- The weight found by the two `try` blocks of `build_reebgraph`:
first `w = H[u0][u1]['weight']`, then `w = H[u1][u0]['weight']`, each
failure ignored — a successful second lookup overwrites the first. -/
def wAfterTries (H : Digraph) (u0 u1 : ℤ) : Option ℤ :=
  match edgeWeight H u1 u0 with
  | some x => some x
  | none => edgeWeight H u0 u1

/-- Is this optional weight a bridge tag (`w == 3 or w == 4`)? -/
def bridgeW : Option ℤ → Bool
  | some w => w == 3 || w == 4
  | none => false

/-- `tuple(set(a) & set(b))`: the distinct shared vertex ids.  (CPython
iterates a small-int set in an unspecified order; the Reeb condition
below is order-independent under the bridge-pair invariant, so we fix
`a`'s order.) -/
def sharedVerts (a b : List ℤ) : List ℤ :=
  (a.filter (fun x => b.contains x)).dedup

/-- The Reeb edges built by `build_reebgraph`: for each ordered pair of
cell indices, if the two cells share exactly two vertices and the weight
found between those vertices is a bridge tag, record `(i, j, shared)`. -/
def build_reebgraph (H : Digraph) (cells : List (List ℤ)) :
    List (ℕ × ℕ × List ℤ) :=
  (List.range cells.length).flatMap (fun i =>
    (List.range cells.length).flatMap (fun j =>
      match sharedVerts (cells.getD i []) (cells.getD j []) with
      | [u0, u1] =>
        if bridgeW (wAfterTries H u0 u1) then [(i, j, [u0, u1])] else []
      | _ => []))

/-- Two four-vertex cells glued along the bridge pair `1 <-> 4`. -/
def reebH : Digraph :=
  { nodes := [(0, ⟨0, 0⟩), (1, ⟨1, 1⟩), (2, ⟨2, 0⟩), (3, ⟨2, -2⟩),
              (4, ⟨1, -1⟩), (5, ⟨0, -2⟩)]
  , edges := [⟨0, 1, 1⟩, ⟨1, 4, 3⟩, ⟨4, 1, 4⟩, ⟨4, 5, 1⟩, ⟨5, 0, 1⟩,
              ⟨1, 2, 1⟩, ⟨2, 3, 1⟩, ⟨3, 4, 1⟩] }

/-- The two cells of `reebH`. -/
def reebCells : List (List ℤ) := [[0, 1, 4, 5], [1, 2, 3, 4]]

/-- One oracle arc of `polyskel.skeletonize`: junction point, priority,
and the neighbor points of the junction. -/
structure SkelArc where
  pt : Pt
  ht : ℚ
  nbrs : List Pt
deriving DecidableEq

instance : Inhabited SkelArc :=
  ⟨⟨⟨0, 0⟩, 0, []⟩⟩

/-- The `epsilon = 1e-5` of the matching loop. -/
def skelEpsilon : ℚ := 1 / 100000

/-- The `elist` epsilon-matching loop of `build_reebgraph`: one `(i, j)`
entry per pair `i ≠ j` and per neighbor point of arc `j` that matches
arc `i`'s junction componentwise within epsilon. -/
def skelElist (skels : List SkelArc) : List (ℕ × ℕ) :=
  (List.range skels.length).flatMap (fun i =>
    (List.range skels.length).flatMap (fun j =>
      if i ≠ j then
        ((skels.getD j default).nbrs).flatMap (fun n2 =>
          if |(skels.getD i default).pt.x - n2.x| ≤ skelEpsilon ∧
              |(skels.getD i default).pt.y - n2.y| ≤ skelEpsilon then
            [(i, j)]
          else [])
      else []))

/-- `rg_centroid`: the mean of the cell's vertex points. -/
def rg_centroid (pts : List Pt) : Pt :=
  ⟨(pts.foldl (fun acc p => acc + p.x) 0) / pts.length,
   (pts.foldl (fun acc p => acc + p.y) 0) / pts.length⟩

/-- The per-cell skeleton subgraph (`tgraph`): ridge-junction nodes with
their points, and the epsilon-matched ridge edges. -/
structure TGraph where
  nodes : List (ℕ × Pt)
  edges : List (ℕ × ℕ)
deriving DecidableEq

/-- The node set of `nx.Graph(elist)` (its order is immaterial to the
claims). -/
def elistNodes (elist : List (ℕ × ℕ)) : List ℕ :=
  (elist.flatMap (fun e => [e.1, e.2])).dedup

/-- The skeleton-subgraph construction of `build_reebgraph` for one
cell, given the oracle's outcome for that cell.  The `skeletonize` call
is wrapped in no `try`, so an oracle exception propagates (`.error`);
an empty match list falls back to the single node `1` at the cell's
centroid. -/
def cell_tgraph (skels? : Except Unit (List SkelArc)) (cellPts : List Pt) :
    Except Unit TGraph :=
  match skels? with
  | .error e => .error e
  | .ok skels =>
    let elist := skelElist skels
    if elist.isEmpty then
      .ok ⟨[(1, rg_centroid cellPts)], []⟩
    else
      .ok ⟨(elistNodes elist).map (fun i => (i, (skels.getD i default).pt)),
           elist⟩

/-- One iteration of the per-cell loop, restricted to the skeleton
construction: an error aborts the rest of the loop. -/
def tgraphStep (acc : Except Unit (List TGraph))
    (c : Except Unit (List SkelArc) × List Pt) : Except Unit (List TGraph) :=
  match acc with
  | .error e => .error e
  | .ok ts =>
    match cell_tgraph c.1 c.2 with
    | .error e => .error e
    | .ok t => .ok (ts ++ [t])

/-- The per-cell loop of `build_reebgraph` over all cells, restricted to
the skeleton construction. -/
def all_tgraphs (cellsIn : List (Except Unit (List SkelArc) × List Pt)) :
    Except Unit (List TGraph) :=
  cellsIn.foldl tgraphStep (.ok [])

/-- `make_rot_matrix(theta)` through its entries `c = cos theta`,
`s = sin theta`, over an arbitrary commutative coordinate ring
(instantiated at ℝ with real cosine/sine in the round-trip theorem):
the matrix `[[c, -s], [s, c]]` as nested pairs. -/
def make_rot_matrixP {α : Type} [CommRing α] (c s : α) : (α × α) × (α × α) :=
  ((c, -s), (s, c))

/-- `original @ rotmatr`: a row vector multiplied by a 2x2 matrix. -/
def rowMul {α : Type} [CommRing α] (p : α × α) (m : (α × α) × (α × α)) :
    α × α :=
  (p.1 * m.1.1 + p.2 * m.2.1, p.1 * m.1.2 + p.2 * m.2.2)

/-- `rotate_graph(G, theta)` on a graph given as a list of `(id, point)`
pairs: a new list with every point rotated; the input is untouched. -/
def rotate_graphP {α : Type} [CommRing α] (G : List (ℤ × α × α)) (c s : α) :
    List (ℤ × α × α) :=
  G.map (fun q => (q.1, rowMul q.2 (make_rot_matrixP c s)))

/-- `rotate_graph` as used by `line_sweep` on the rational embedding of
the graph, through the rotation-matrix entries `(c, s)`. -/
def rotatePt (p : Pt) (c s : ℚ) : Pt :=
  ⟨p.x * c + p.y * s, p.x * (-s) + p.y * c⟩

/-- `H = rotate_graph(G, theta)` inside `line_sweep`. -/
def rotate_graph (H : Digraph) (c s : ℚ) : Digraph :=
  { H with nodes := H.nodes.map (fun q => (q.1, rotatePt q.2 c s)) }

/-- Stable insertion into a list sorted by x (a tie keeps the earlier
node in front, matching Python's stable `sorted`). -/
def insertByX (H : Digraph) (n : ℤ) : List ℤ → List ℤ
  | [] => [n]
  | m :: rest =>
    if (getPt H n).x ≤ (getPt H m).x then n :: m :: rest
    else m :: insertByX H n rest

/-- `L = sorted(H.nodes, key=left_to_right)`. -/
def sortedByX (H : Digraph) : List ℤ :=
  (H.nodes.map Prod.fst).foldr (insertByX H) []

/-- The event loop of `line_sweep`: classify each vertex of the
pre-materialized sorted list on the current (surgically mutated) graph,
perform split/merge surgery, and record critical vertices; the
`(vertex, event)` trace observes the classification outcomes.  `none`
models the classification `ValueError`. -/
def sweepLoop : List ℤ → Digraph → List ℤ → List (ℤ × Event) →
    Option (Digraph × List ℤ × List (ℤ × Event))
  | [], H, crits, events => some (H, crits, events)
  | v :: rest, H, crits, events =>
    match check_lu H v with
    | none => none
    | some et =>
      sweepLoop rest
        (if et = Event.SPLIT ∨ et = Event.MERGE then splitmerge_points H v
          else H)
        (if et = Event.OPEN ∨ et = Event.SPLIT ∨ et = Event.MERGE ∨
            et = Event.CLOSE then crits ++ [v] else crits)
        (events ++ [(v, et)])

/-- `for c in crits: cells = append_cell(H, c, cells)`. -/
def cellsLoop (H : Digraph) (crits : List ℤ) (fuel : ℕ) :
    Option (List (List ℤ)) :=
  crits.foldl (fun acc c =>
    match acc with
    | none => none
    | some cells => append_cell H c cells fuel) (some [])

/-- `line_sweep` up to its events and cells: rotate by the matrix
entries `(c, s)`, sort by x, run the event loop on the rotated copy,
then extract the cells. -/
def line_sweep_ec (G : Digraph) (c s : ℚ) (fuel : ℕ) :
    Option (List (ℤ × Event) × List (List ℤ)) :=
  let H := rotate_graph G c s
  match sweepLoop (sortedByX H) H [] [] with
  | none => none
  | some (H2, crits, events) =>
    match cellsLoop H2 crits fuel with
    | none => none
    | some cells => some (events, cells)

/-- The specification square oriented clockwise, as `polygon.polygon`
orients outer boundaries: `0→3→2→1→0`. -/
def squareCW : Digraph :=
  { nodes := [(0, ⟨0, 0⟩), (1, ⟨4, 0⟩), (2, ⟨4, 4⟩), (3, ⟨0, 4⟩)]
  , edges := [⟨0, 3, 1⟩, ⟨3, 2, 1⟩, ⟨2, 1, 1⟩, ⟨1, 0, 1⟩] }

theorem check_edge_iff (H : Digraph) (v : ℤ) (e : DEdge) :
    check_edge H v e.src e.tgt = true ↔ straddles H v e := by
  unfold check_edge straddles
  by_cases h1 : (getPt H e.src).x > (getPt H v).x ∧ (getPt H e.tgt).x < (getPt H v).x
  · simp [h1]
  · by_cases h2 : (getPt H e.src).x < (getPt H v).x ∧ (getPt H e.tgt).x > (getPt H v).x
    · simp [h1, h2]
    · simp [h1, h2]

theorem intersect_eq_lerp (p1 p2 pv : Pt)
    (h : (p1.x > pv.x ∧ p2.x < pv.x) ∨ (p1.x < pv.x ∧ p2.x > pv.x)) :
    intersect_vertical_line p1 p2 pv = lerpAtX p1 p2 pv.x := by
  have hne : p2.x - p1.x ≠ 0 := by
    rcases h with h | h
    · exact sub_ne_zero_of_ne (ne_of_lt (lt_trans h.2 h.1))
    · exact sub_ne_zero_of_ne (ne_of_gt (lt_trans h.1 h.2))
  have hm : |pv.x - p1.x| / |p2.x - p1.x| = (pv.x - p1.x) / (p2.x - p1.x) := by
    rcases h with h | h
    · have hn : pv.x - p1.x < 0 := sub_neg.mpr h.1
      have hd : p2.x - p1.x < 0 := sub_neg.mpr (lt_trans h.2 h.1)
      rw [abs_of_neg hn, abs_of_neg hd, neg_div_neg_eq]
    · have hn : 0 < pv.x - p1.x := sub_pos.mpr h.1
      have hd : 0 < p2.x - p1.x := sub_pos.mpr (lt_trans h.1 h.2)
      rw [abs_of_pos hn, abs_of_pos hd]
  unfold intersect_vertical_line lerpAtX
  simp only [hm]
  have hx : p1.x + (pv.x - p1.x) / (p2.x - p1.x) * (p2.x - p1.x) = pv.x := by
    rw [div_mul_cancel₀ _ hne]; ring
  have hy : (pv.x - p1.x) / (p2.x - p1.x) * (p2.y - p1.y) + p1.y =
      p1.y + (pv.x - p1.x) / (p2.x - p1.x) * (p2.y - p1.y) := by ring
  rw [hy, hx]

theorem pickMin_go (y : ℚ) :
    ∀ (l : List Collision) (acc : Option Collision) (r : Collision),
    l.foldl (minStep y) acc = some r →
    (acc = some r ∨ r ∈ l) ∧ (∀ c ∈ l, ydiff y r ≤ ydiff y c) ∧
    (∀ b, acc = some b → ydiff y r ≤ ydiff y b) := by
  intro l
  induction l with
  | nil =>
    intro acc r h
    simp only [List.foldl_nil] at h
    refine ⟨Or.inl h, by simp, ?_⟩
    intro b hb
    rw [h] at hb
    cases hb
    exact le_refl _
  | cons c l ih =>
    intro acc r h
    simp only [List.foldl_cons] at h
    obtain ⟨h1, h2, h3⟩ := ih (minStep y acc c) r h
    have hstep : ∃ b', minStep y acc c = some b' ∧ ydiff y b' ≤ ydiff y c ∧
        (∀ b, acc = some b → ydiff y b' ≤ ydiff y b) := by
      match acc with
      | none => exact ⟨c, rfl, le_refl _, by simp⟩
      | some b =>
        by_cases hlt : ydiff y c < ydiff y b
        · refine ⟨c, ?_, le_refl _, ?_⟩
          · simp [minStep, if_pos hlt]
          · intro b0 hb0; cases hb0; exact le_of_lt hlt
        · refine ⟨b, ?_, not_lt.mp hlt, ?_⟩
          · simp [minStep, if_neg hlt]
          · intro b0 hb0; cases hb0; exact le_refl _
    obtain ⟨b', hb'eq, hb'c, hb'acc⟩ := hstep
    have hrb' : ydiff y r ≤ ydiff y b' := h3 b' hb'eq
    refine ⟨?_, ?_, ?_⟩
    · rcases h1 with h1 | h1
      · rw [hb'eq] at h1
        cases h1
        match acc with
        | none =>
          cases hb'eq
          exact Or.inr (List.mem_cons_self _ _)
        | some b =>
          simp only [minStep] at hb'eq
          by_cases hlt : ydiff y c < ydiff y b
          · rw [if_pos hlt] at hb'eq
            cases hb'eq
            exact Or.inr (List.mem_cons_self _ _)
          · rw [if_neg hlt] at hb'eq
            exact Or.inl hb'eq
      · exact Or.inr (List.mem_cons_of_mem _ h1)
    · intro d hd
      rcases List.mem_cons.mp hd with hd | hd
      · cases hd
        exact le_trans hrb' hb'c
      · exact h2 d hd
    · intro b hb
      exact le_trans hrb' (hb'acc b hb)

theorem pickMax_go (y : ℚ) :
    ∀ (l : List Collision) (acc : Option Collision) (r : Collision),
    l.foldl (maxStep y) acc = some r →
    (acc = some r ∨ r ∈ l) ∧ (∀ c ∈ l, ydiff y c ≤ ydiff y r) ∧
    (∀ b, acc = some b → ydiff y b ≤ ydiff y r) := by
  intro l
  induction l with
  | nil =>
    intro acc r h
    simp only [List.foldl_nil] at h
    refine ⟨Or.inl h, by simp, ?_⟩
    intro b hb
    rw [h] at hb
    cases hb
    exact le_refl _
  | cons c l ih =>
    intro acc r h
    simp only [List.foldl_cons] at h
    obtain ⟨h1, h2, h3⟩ := ih (maxStep y acc c) r h
    have hstep : ∃ b', maxStep y acc c = some b' ∧ ydiff y c ≤ ydiff y b' ∧
        (∀ b, acc = some b → ydiff y b ≤ ydiff y b') := by
      match acc with
      | none => exact ⟨c, rfl, le_refl _, by simp⟩
      | some b =>
        by_cases hlt : ydiff y c > ydiff y b
        · refine ⟨c, ?_, le_refl _, ?_⟩
          · simp [maxStep, if_pos hlt]
          · intro b0 hb0; cases hb0; exact le_of_lt hlt
        · refine ⟨b, ?_, not_lt.mp hlt, ?_⟩
          · simp [maxStep, if_neg hlt]
          · intro b0 hb0; cases hb0; exact le_refl _
    obtain ⟨b', hb'eq, hb'c, hb'acc⟩ := hstep
    have hrb' : ydiff y b' ≤ ydiff y r := h3 b' hb'eq
    refine ⟨?_, ?_, ?_⟩
    · rcases h1 with h1 | h1
      · rw [hb'eq] at h1
        cases h1
        match acc with
        | none =>
          cases hb'eq
          exact Or.inr (List.mem_cons_self _ _)
        | some b =>
          simp only [maxStep] at hb'eq
          by_cases hlt : ydiff y c > ydiff y b
          · rw [if_pos hlt] at hb'eq
            cases hb'eq
            exact Or.inr (List.mem_cons_self _ _)
          · rw [if_neg hlt] at hb'eq
            exact Or.inl hb'eq
      · exact Or.inr (List.mem_cons_of_mem _ h1)
    · intro d hd
      rcases List.mem_cons.mp hd with hd | hd
      · cases hd
        exact le_trans hb'c hrb'
      · exact h2 d hd
    · intro b hb
      exact le_trans (hb'acc b hb) hrb'

/-- C2: in a graph whose non-`BOUNDARY` edges are all vertical (the
invariant the sweep maintains, since every bridge joins `v` to a point
with `v`'s own x-coordinate), a probe's collision list contains exactly
one record per `BOUNDARY` edge whose endpoint x-coordinates strictly
straddle `v`'s; every collision point is the linear interpolation of the
edge endpoints at `v`'s x-coordinate; and the returned pair is the
nearest collision strictly above `v` and the nearest strictly below,
measured by signed y-difference from `v`. -/
theorem C2_probe_considers_boundary_straddling (H : Digraph) (v : ℤ)
    (hvert : ∀ e ∈ H.edges, ¬(e.w = 1 ∨ e.w = 2) →
      (getPt H e.src).x = (getPt H e.tgt).x) :
    (∀ c, c ∈ collisionsAt H v ↔
      ∃ e ∈ H.edges, (e.w = 1 ∨ e.w = 2) ∧ straddles H v e ∧ c = mkCol H v e) ∧
    (∀ c ∈ collisionsAt H v,
      c.pt = lerpAtX (getPt H c.e1) (getPt H c.e2) (getPt H v).x ∧
      c.pt.x = (getPt H v).x) ∧
    (∀ ca, (get_intersects H v).1 = some ca →
      ca ∈ collisionsAt H v ∧ ca.pt.y > (getPt H v).y ∧
      ∀ c ∈ collisionsAt H v, c.pt.y > (getPt H v).y →
        ca.pt.y - (getPt H v).y ≤ c.pt.y - (getPt H v).y) ∧
    (∀ cb, (get_intersects H v).2 = some cb →
      cb ∈ collisionsAt H v ∧ cb.pt.y < (getPt H v).y ∧
      ∀ c ∈ collisionsAt H v, c.pt.y < (getPt H v).y →
        c.pt.y - (getPt H v).y ≤ cb.pt.y - (getPt H v).y) := by
  have hmem : ∀ c, c ∈ collisionsAt H v ↔
      ∃ e ∈ H.edges, straddles H v e ∧ c = mkCol H v e := by
    intro c
    unfold collisionsAt
    rw [List.mem_filterMap]
    constructor
    · rintro ⟨e, he, hsome⟩
      by_cases hch : check_edge H v e.src e.tgt = true
      · rw [if_pos hch] at hsome
        exact ⟨e, he, (check_edge_iff H v e).mp hch, (Option.some_inj.mp hsome).symm⟩
      · rw [if_neg hch] at hsome
        cases hsome
    · rintro ⟨e, he, hst, hc⟩
      refine ⟨e, he, ?_⟩
      rw [if_pos ((check_edge_iff H v e).mpr hst), hc]
  constructor
  · intro c
    rw [hmem c]
    constructor
    · rintro ⟨e, he, hst, hc⟩
      refine ⟨e, he, ?_, hst, hc⟩
      by_contra hw
      have hx := hvert e he hw
      rcases hst with hst | hst
      · exact absurd hx (ne_of_gt (lt_trans hst.2 hst.1))
      · exact absurd hx (ne_of_lt (lt_trans hst.1 hst.2))
    · rintro ⟨e, he, _, hst, hc⟩
      exact ⟨e, he, hst, hc⟩
  constructor
  · intro c hc
    obtain ⟨e, _, hst, hceq⟩ := (hmem c).mp hc
    subst hceq
    have hpt := intersect_eq_lerp (getPt H e.src) (getPt H e.tgt) (getPt H v) hst
    constructor
    · simpa [mkCol] using hpt
    · simp [mkCol, intersect_vertical_line]
  constructor
  · intro ca ha
    unfold get_intersects at ha
    by_cases hc : (collisionsAt H v).isEmpty
    · simp only [if_pos hc] at ha
      cases ha
    · simp only [if_neg hc] at ha
      obtain ⟨h1, h2, _⟩ := pickMin_go (getPt H v).y _ none ca ha
      rcases h1 with h1 | h1
      · cases h1
      · have hmemf := List.mem_filter.mp h1
        refine ⟨hmemf.1, by simpa using hmemf.2, ?_⟩
        intro c hcmem hcy
        have : c ∈ (collisionsAt H v).filter
            (fun c => decide (c.pt.y > (getPt H v).y)) :=
          List.mem_filter.mpr ⟨hcmem, by simpa using hcy⟩
        exact h2 c this
  · intro cb hb
    unfold get_intersects at hb
    by_cases hc : (collisionsAt H v).isEmpty
    · simp only [if_pos hc] at hb
      cases hb
    · simp only [if_neg hc] at hb
      obtain ⟨h1, h2, _⟩ := pickMax_go (getPt H v).y _ none cb hb
      rcases h1 with h1 | h1
      · cases h1
      · have hmemf := List.mem_filter.mp h1
        refine ⟨hmemf.1, by simpa using hmemf.2, ?_⟩
        intro c hcmem hcy
        have : c ∈ (collisionsAt H v).filter
            (fun c => decide (c.pt.y < (getPt H v).y)) :=
          List.mem_filter.mpr ⟨hcmem, by simpa using hcy⟩
        exact h2 c this

/-- Witness for C2: in `probeH` the edge `(1,2)` straddles vertex 0 and
its collision record is considered; its collision point sits on the
probe line. -/
theorem C2_probe_considers_boundary_straddling_witness :
    mkCol probeH 0 ⟨1, 2, 1⟩ ∈ collisionsAt probeH 0 ∧
    (mkCol probeH 0 ⟨1, 2, 1⟩).pt.x = (getPt probeH 0).x := by
  have h := C2_probe_considers_boundary_straddling probeH 0 (by decide)
  have hm : mkCol probeH 0 ⟨1, 2, 1⟩ ∈ collisionsAt probeH 0 :=
    (h.1 _).mpr ⟨⟨1, 2, 1⟩, by decide, Or.inl rfl, Or.inr (by decide), rfl⟩
  exact ⟨hm, (h.2.1 _ hm).2⟩

/-- C1: `check_lu` classifies a vertex by the sign table on the
lower/upper neighbor x-coordinates together with the `above` flag
computed by `lower_upper`; a configuration in which a neighbor shares
`v`'s x-coordinate matches no branch and raises the classification
error (modelled as `none`). -/
theorem C1_check_lu_classification (H : Digraph) (v l u : ℤ) (above : Bool)
    (h : lower_upper H v = some (l, u, above)) :
    ((getPt H l).x > (getPt H v).x ∧ (getPt H u).x > (getPt H v).x →
      check_lu H v = some (if above then Event.OPEN else Event.SPLIT)) ∧
    ((getPt H l).x < (getPt H v).x ∧ (getPt H u).x < (getPt H v).x →
      check_lu H v = some (if above then Event.CLOSE else Event.MERGE)) ∧
    ((getPt H l).x > (getPt H v).x ∧ (getPt H u).x < (getPt H v).x →
      check_lu H v = some Event.INFLECTION) ∧
    ((getPt H l).x < (getPt H v).x ∧ (getPt H u).x > (getPt H v).x →
      check_lu H v = some Event.INFLECTION) ∧
    ((getPt H l).x = (getPt H v).x ∨ (getPt H u).x = (getPt H v).x →
      check_lu H v = none) := by
  unfold check_lu
  rw [h]
  refine ⟨?_, ?_, ?_, ?_, ?_⟩
  · intro hc
    simp only [if_pos hc]
  · intro hc
    have h1 : ¬((getPt H l).x > (getPt H v).x ∧ (getPt H u).x > (getPt H v).x) := by
      intro hcon; exact absurd hc.1 (not_lt.mpr (le_of_lt hcon.1))
    simp only [if_neg h1, if_pos hc]
  · intro hc
    have h1 : ¬((getPt H l).x > (getPt H v).x ∧ (getPt H u).x > (getPt H v).x) := by
      intro hcon; exact absurd hc.2 (not_lt.mpr (le_of_lt hcon.2))
    have h2 : ¬((getPt H l).x < (getPt H v).x ∧ (getPt H u).x < (getPt H v).x) := by
      intro hcon; exact absurd hc.1 (not_lt.mpr (le_of_lt hcon.1))
    simp only [if_neg h1, if_neg h2, if_pos hc]
  · intro hc
    have h1 : ¬((getPt H l).x > (getPt H v).x ∧ (getPt H u).x > (getPt H v).x) := by
      intro hcon; exact absurd hc.1 (not_lt.mpr (le_of_lt hcon.1))
    have h2 : ¬((getPt H l).x < (getPt H v).x ∧ (getPt H u).x < (getPt H v).x) := by
      intro hcon; exact absurd hc.2 (not_lt.mpr (le_of_lt hcon.2))
    have h3 : ¬((getPt H l).x > (getPt H v).x ∧ (getPt H u).x < (getPt H v).x) := by
      intro hcon; exact absurd hc.1 (not_lt.mpr (le_of_lt hcon.1))
    simp only [if_neg h1, if_neg h2, if_neg h3, if_pos hc]
  · intro hc
    rcases hc with hc | hc
    · have h1 : ¬((getPt H l).x > (getPt H v).x ∧ (getPt H u).x > (getPt H v).x) := by
        intro hcon; exact absurd hc (ne_of_gt hcon.1)
      have h2 : ¬((getPt H l).x < (getPt H v).x ∧ (getPt H u).x < (getPt H v).x) := by
        intro hcon; exact absurd hc (ne_of_lt hcon.1)
      have h3 : ¬((getPt H l).x > (getPt H v).x ∧ (getPt H u).x < (getPt H v).x) := by
        intro hcon; exact absurd hc (ne_of_gt hcon.1)
      have h4 : ¬((getPt H l).x < (getPt H v).x ∧ (getPt H u).x > (getPt H v).x) := by
        intro hcon; exact absurd hc (ne_of_lt hcon.1)
      simp only [if_neg h1, if_neg h2, if_neg h3, if_neg h4]
    · have h1 : ¬((getPt H l).x > (getPt H v).x ∧ (getPt H u).x > (getPt H v).x) := by
        intro hcon; exact absurd hc (ne_of_gt hcon.2)
      have h2 : ¬((getPt H l).x < (getPt H v).x ∧ (getPt H u).x < (getPt H v).x) := by
        intro hcon; exact absurd hc (ne_of_lt hcon.2)
      have h3 : ¬((getPt H l).x > (getPt H v).x ∧ (getPt H u).x < (getPt H v).x) := by
        intro hcon; exact absurd hc (ne_of_lt hcon.2)
      have h4 : ¬((getPt H l).x < (getPt H v).x ∧ (getPt H u).x > (getPt H v).x) := by
        intro hcon; exact absurd hc (ne_of_gt hcon.2)
      simp only [if_neg h1, if_neg h2, if_neg h3, if_neg h4]

/-- Witness for C1: at vertex 0 of the specification square the lower
neighbor (vertex 3, at `(0,4)`) shares `v`'s x-coordinate, and
`check_lu` indeed raises the classification error. -/
theorem C1_check_lu_classification_witness :
    check_lu squareSpec 0 = none :=
  (C1_check_lu_classification squareSpec 0 3 1 false rfl).2.2.2.2
    (Or.inl (by decide))

/-- C10: whenever `check_edge` accepts an edge, `v`'s x-coordinate lies
strictly between the endpoint x-coordinates, so the denominator
`|p2.x - p1.x|` of `intersect_vertical_line` is nonzero and the
interpolation is well-defined. -/
theorem C10_check_edge_denominator (H : Digraph) (v e1 e2 : ℤ)
    (h : check_edge H v e1 e2 = true) :
    (((getPt H e2).x < (getPt H v).x ∧ (getPt H v).x < (getPt H e1).x) ∨
      ((getPt H e1).x < (getPt H v).x ∧ (getPt H v).x < (getPt H e2).x)) ∧
    (getPt H e2).x - (getPt H e1).x ≠ 0 ∧
    |(getPt H e2).x - (getPt H e1).x| ≠ 0 := by
  unfold check_edge at h
  by_cases h1 : (getPt H e1).x > (getPt H v).x ∧ (getPt H e2).x < (getPt H v).x
  · refine ⟨Or.inl ⟨h1.2, h1.1⟩, ?_, ?_⟩
    · exact sub_ne_zero_of_ne (ne_of_lt (lt_trans h1.2 h1.1))
    · exact abs_ne_zero.mpr (sub_ne_zero_of_ne (ne_of_lt (lt_trans h1.2 h1.1)))
  · by_cases h2 : (getPt H e1).x < (getPt H v).x ∧ (getPt H e2).x > (getPt H v).x
    · refine ⟨Or.inr ⟨h2.1, h2.2⟩, ?_, ?_⟩
      · exact sub_ne_zero_of_ne (ne_of_gt (lt_trans h2.1 h2.2))
      · exact abs_ne_zero.mpr (sub_ne_zero_of_ne (ne_of_gt (lt_trans h2.1 h2.2)))
    · simp only [if_neg h1, if_neg h2] at h
      exact Bool.noConfusion h

/-- Witness for C10 at a concrete straddling edge. -/
theorem C10_check_edge_denominator_witness :
    ((((getPt probeW 2).x < (getPt probeW 0).x ∧ (getPt probeW 0).x < (getPt probeW 1).x) ∨
      ((getPt probeW 1).x < (getPt probeW 0).x ∧ (getPt probeW 0).x < (getPt probeW 2).x)) ∧
    (getPt probeW 2).x - (getPt probeW 1).x ≠ 0 ∧
    |(getPt probeW 2).x - (getPt probeW 1).x| ≠ 0) :=
  C10_check_edge_denominator probeW 0 1 2 (by decide)

theorem maxId_ge : ∀ (l : List (ℤ × Pt)) (q : ℤ × Pt), q ∈ l → q.1 ≤ maxId l := by
  intro l
  induction l with
  | nil => intro q h; cases h
  | cons q0 tl ih =>
    intro q hq
    cases tl with
    | nil =>
      rcases List.mem_cons.mp hq with h | h
      · rw [h]; exact le_refl _
      · cases h
    | cons r rest =>
      rcases List.mem_cons.mp hq with h | h
      · rw [h]; exact le_max_left _ _
      · exact le_trans (ih q h) (le_max_right _ _)

theorem removeEdgePair_eq_self (edges : List DEdge) (u v : ℤ)
    (h : ∀ e ∈ edges, ¬(e.src = u ∧ e.tgt = v)) :
    removeEdgePair edges u v = edges := by
  unfold removeEdgePair
  apply List.filter_eq_self.mpr
  intro e he
  rcases not_and_or.mp (h e he) with hna | hna
  · simp [hna]
  · simp [hna]

theorem add_edge_eq_append (H : Digraph) (u v w : ℤ)
    (h : ∀ e ∈ H.edges, ¬(e.src = u ∧ e.tgt = v)) :
    add_edge H u v w = ⟨H.nodes, H.edges ++ [⟨u, v, w⟩]⟩ := by
  unfold add_edge
  rw [removeEdgePair_eq_self _ _ _ h]

theorem add_edge_lit (N : List (ℤ × Pt)) (E : List DEdge) (u v w : ℤ)
    (h : ∀ e ∈ E, ¬(e.src = u ∧ e.tgt = v)) :
    add_edge ⟨N, E⟩ u v w = ⟨N, E ++ [⟨u, v, w⟩]⟩ :=
  add_edge_eq_append ⟨N, E⟩ u v w h

/-- The frame computation shared by several claims: the exact node and
edge lists produced by one collision surgery, on either side. -/
theorem splitmerge_frame (H : Digraph) (v : ℤ) (a : Collision)
    (hv : v ∈ nodeIds H) (he1 : a.e1 ∈ nodeIds H) (he2 : a.e2 ∈ nodeIds H)
    (he1v : a.e1 ≠ v) (he2v : a.e2 ≠ v)
    (hclosed : ∀ e ∈ H.edges, e.src ∈ nodeIds H ∧ e.tgt ∈ nodeIds H) :
    maxId H.nodes + 1 ∉ nodeIds H ∧
    splitmerge_above H v a =
      ⟨H.nodes ++ [(maxId H.nodes + 1, a.pt)],
       removeEdgePair H.edges a.e1 a.e2 ++
         [⟨maxId H.nodes + 1, v, 3⟩, ⟨v, maxId H.nodes + 1, 4⟩,
          ⟨a.e1, maxId H.nodes + 1, a.weight⟩,
          ⟨maxId H.nodes + 1, a.e2, a.weight⟩]⟩ ∧
    splitmerge_below H v a =
      ⟨H.nodes ++ [(maxId H.nodes + 1, a.pt)],
       removeEdgePair H.edges a.e1 a.e2 ++
         [⟨v, maxId H.nodes + 1, 3⟩, ⟨maxId H.nodes + 1, v, 4⟩,
          ⟨a.e1, maxId H.nodes + 1, a.weight⟩,
          ⟨maxId H.nodes + 1, a.e2, a.weight⟩]⟩ := by
  have hainot : maxId H.nodes + 1 ∉ nodeIds H := by
    intro hmem
    obtain ⟨q, hq, hq1⟩ := List.mem_map.mp hmem
    have hle := maxId_ge H.nodes q hq
    omega
  have hsrc : ∀ e ∈ H.edges, e.src ≠ maxId H.nodes + 1 := by
    intro e he h
    exact hainot (h ▸ (hclosed e he).1)
  have htgt : ∀ e ∈ H.edges, e.tgt ≠ maxId H.nodes + 1 := by
    intro e he h
    exact hainot (h ▸ (hclosed e he).2)
  have hvai : v ≠ maxId H.nodes + 1 := fun h => hainot (h ▸ hv)
  have he1ai : a.e1 ≠ maxId H.nodes + 1 := fun h => hainot (h ▸ he1)
  have he2ai : a.e2 ≠ maxId H.nodes + 1 := fun h => hainot (h ▸ he2)
  have hnode : add_node H (maxId H.nodes + 1) a.pt =
      ⟨H.nodes ++ [(maxId H.nodes + 1, a.pt)], H.edges⟩ := by
    unfold add_node
    rw [if_neg]
    intro hany
    obtain ⟨q, hq, hq1⟩ := List.any_eq_true.mp hany
    exact hainot (List.mem_map.mpr ⟨q, hq, by simpa using hq1⟩)
  have hfil : ∀ (x : DEdge), ¬(x.src = a.e1 ∧ x.tgt = a.e2) →
      List.filter (fun e => !(e.src == a.e1 && e.tgt == a.e2)) [x] = [x] := by
    intro x hx
    rcases not_and_or.mp hx with hna | hna
    · have hb : (x.src == a.e1) = false := beq_eq_false_iff_ne.mpr hna
      simp [List.filter, hb]
    · have hb : (x.tgt == a.e2) = false := beq_eq_false_iff_ne.mpr hna
      simp [List.filter, hb]
  refine ⟨hainot, ?_, ?_⟩
  · have s1 := add_edge_lit (H.nodes ++ [(maxId H.nodes + 1, a.pt)]) H.edges
        (maxId H.nodes + 1) v 3 (fun e he h => hsrc e he h.1)
    have s2 := add_edge_lit (H.nodes ++ [(maxId H.nodes + 1, a.pt)])
        (H.edges ++ [⟨maxId H.nodes + 1, v, 3⟩]) v (maxId H.nodes + 1) 4 (by
      intro e he h
      rcases List.mem_append.mp he with he | he
      · exact htgt e he h.2
      · rcases List.mem_singleton.mp he with rfl
        exact hvai h.1.symm)
    have s3 := add_edge_lit (H.nodes ++ [(maxId H.nodes + 1, a.pt)])
        (H.edges ++ [⟨maxId H.nodes + 1, v, 3⟩] ++ [⟨v, maxId H.nodes + 1, 4⟩])
        a.e1 (maxId H.nodes + 1) a.weight (by
      intro e he h
      rcases List.mem_append.mp he with he | he
      · rcases List.mem_append.mp he with he | he
        · exact htgt e he h.2
        · rcases List.mem_singleton.mp he with rfl
          exact he1ai h.1.symm
      · rcases List.mem_singleton.mp he with rfl
        exact he1v h.1.symm)
    have s4 := add_edge_lit (H.nodes ++ [(maxId H.nodes + 1, a.pt)])
        (H.edges ++ [⟨maxId H.nodes + 1, v, 3⟩] ++ [⟨v, maxId H.nodes + 1, 4⟩] ++
          [⟨a.e1, maxId H.nodes + 1, a.weight⟩])
        (maxId H.nodes + 1) a.e2 a.weight (by
      intro e he h
      rcases List.mem_append.mp he with he | he
      · rcases List.mem_append.mp he with he | he
        · rcases List.mem_append.mp he with he | he
          · exact hsrc e he h.1
          · rcases List.mem_singleton.mp he with rfl
            exact he2v h.2.symm
        · rcases List.mem_singleton.mp he with rfl
          exact hvai h.1
      · rcases List.mem_singleton.mp he with rfl
        exact he1ai h.1)
    simp only [splitmerge_above]
    rw [hnode, s1, s2, s3, s4]
    refine congrArg (Digraph.mk _) ?_
    show removeEdgePair _ _ _ = _
    simp only [removeEdgePair, List.filter_append]
    rw [hfil ⟨maxId H.nodes + 1, v, 3⟩ (by
      intro h
      exact he1ai h.1.symm)]
    rw [hfil ⟨v, maxId H.nodes + 1, 4⟩ (by
      intro h
      exact he1v h.1.symm)]
    rw [hfil ⟨a.e1, maxId H.nodes + 1, a.weight⟩ (by
      intro h
      exact he2ai h.2.symm)]
    rw [hfil ⟨maxId H.nodes + 1, a.e2, a.weight⟩ (by
      intro h
      exact he1ai h.1.symm)]
    simp [List.append_assoc]
  · have s1 := add_edge_lit (H.nodes ++ [(maxId H.nodes + 1, a.pt)]) H.edges
        v (maxId H.nodes + 1) 3 (fun e he h => htgt e he h.2)
    have s2 := add_edge_lit (H.nodes ++ [(maxId H.nodes + 1, a.pt)])
        (H.edges ++ [⟨v, maxId H.nodes + 1, 3⟩]) (maxId H.nodes + 1) v 4 (by
      intro e he h
      rcases List.mem_append.mp he with he | he
      · exact hsrc e he h.1
      · rcases List.mem_singleton.mp he with rfl
        exact hvai h.2.symm)
    have s3 := add_edge_lit (H.nodes ++ [(maxId H.nodes + 1, a.pt)])
        (H.edges ++ [⟨v, maxId H.nodes + 1, 3⟩] ++ [⟨maxId H.nodes + 1, v, 4⟩])
        a.e1 (maxId H.nodes + 1) a.weight (by
      intro e he h
      rcases List.mem_append.mp he with he | he
      · rcases List.mem_append.mp he with he | he
        · exact htgt e he h.2
        · rcases List.mem_singleton.mp he with rfl
          exact he1v h.1.symm
      · rcases List.mem_singleton.mp he with rfl
        exact he1ai h.1.symm)
    have s4 := add_edge_lit (H.nodes ++ [(maxId H.nodes + 1, a.pt)])
        (H.edges ++ [⟨v, maxId H.nodes + 1, 3⟩] ++ [⟨maxId H.nodes + 1, v, 4⟩] ++
          [⟨a.e1, maxId H.nodes + 1, a.weight⟩])
        (maxId H.nodes + 1) a.e2 a.weight (by
      intro e he h
      rcases List.mem_append.mp he with he | he
      · rcases List.mem_append.mp he with he | he
        · rcases List.mem_append.mp he with he | he
          · exact hsrc e he h.1
          · rcases List.mem_singleton.mp he with rfl
            exact hvai h.1
        · rcases List.mem_singleton.mp he with rfl
          exact he2v h.2.symm
      · rcases List.mem_singleton.mp he with rfl
        exact he1ai h.1)
    simp only [splitmerge_below]
    rw [hnode, s1, s2, s3, s4]
    refine congrArg (Digraph.mk _) ?_
    show removeEdgePair _ _ _ = _
    simp only [removeEdgePair, List.filter_append]
    rw [hfil ⟨v, maxId H.nodes + 1, 3⟩ (by
      intro h
      exact he1v h.1.symm)]
    rw [hfil ⟨maxId H.nodes + 1, v, 4⟩ (by
      intro h
      exact he1ai h.1.symm)]
    rw [hfil ⟨a.e1, maxId H.nodes + 1, a.weight⟩ (by
      intro h
      exact he2ai h.2.symm)]
    rw [hfil ⟨maxId H.nodes + 1, a.e2, a.weight⟩ (by
      intro h
      exact he1ai h.1.symm)]
    simp [List.append_assoc]

/-- C3: the surgery at one found collision changes the graph exactly by
inserting one fresh vertex (id `max + 1`, previously unused) at the
collision point, removing the collided edge, adding the two edge halves
from the former endpoints to the new vertex with the collision's
inherited weight, and adding a bridge pair (weights 3/`close` and
4/`open`, mutually reverse) between `v` and the new vertex; everything
else — prior nodes, prior edges, and their attributes — is kept
verbatim. -/
theorem C3_splitmerge_surgery_frame (H : Digraph) (v : ℤ) (a : Collision)
    (hv : v ∈ nodeIds H) (he1 : a.e1 ∈ nodeIds H) (he2 : a.e2 ∈ nodeIds H)
    (he1v : a.e1 ≠ v) (he2v : a.e2 ≠ v)
    (hclosed : ∀ e ∈ H.edges, e.src ∈ nodeIds H ∧ e.tgt ∈ nodeIds H) :
    maxId H.nodes + 1 ∉ nodeIds H ∧
    splitmerge_above H v a =
      ⟨H.nodes ++ [(maxId H.nodes + 1, a.pt)],
       removeEdgePair H.edges a.e1 a.e2 ++
         [⟨maxId H.nodes + 1, v, 3⟩, ⟨v, maxId H.nodes + 1, 4⟩,
          ⟨a.e1, maxId H.nodes + 1, a.weight⟩,
          ⟨maxId H.nodes + 1, a.e2, a.weight⟩]⟩ ∧
    splitmerge_below H v a =
      ⟨H.nodes ++ [(maxId H.nodes + 1, a.pt)],
       removeEdgePair H.edges a.e1 a.e2 ++
         [⟨v, maxId H.nodes + 1, 3⟩, ⟨maxId H.nodes + 1, v, 4⟩,
          ⟨a.e1, maxId H.nodes + 1, a.weight⟩,
          ⟨maxId H.nodes + 1, a.e2, a.weight⟩]⟩ :=
  splitmerge_frame H v a hv he1 he2 he1v he2v hclosed

/-- Witness for C3: the surgery applied at vertex 0 of `probeH` with the
collision record of its straddling edge `(1,2)`. -/
theorem C3_splitmerge_surgery_frame_witness :
    maxId probeH.nodes + 1 ∉ nodeIds probeH ∧
    splitmerge_above probeH 0 (mkCol probeH 0 ⟨1, 2, 1⟩) =
      ⟨probeH.nodes ++ [(maxId probeH.nodes + 1, (mkCol probeH 0 ⟨1, 2, 1⟩).pt)],
       removeEdgePair probeH.edges 1 2 ++
         [⟨maxId probeH.nodes + 1, 0, 3⟩, ⟨0, maxId probeH.nodes + 1, 4⟩,
          ⟨1, maxId probeH.nodes + 1, 1⟩, ⟨maxId probeH.nodes + 1, 2, 1⟩]⟩ ∧
    splitmerge_below probeH 0 (mkCol probeH 0 ⟨1, 2, 1⟩) =
      ⟨probeH.nodes ++ [(maxId probeH.nodes + 1, (mkCol probeH 0 ⟨1, 2, 1⟩).pt)],
       removeEdgePair probeH.edges 1 2 ++
         [⟨0, maxId probeH.nodes + 1, 3⟩, ⟨maxId probeH.nodes + 1, 0, 4⟩,
          ⟨1, maxId probeH.nodes + 1, 1⟩, ⟨maxId probeH.nodes + 1, 2, 1⟩]⟩ :=
  C3_splitmerge_surgery_frame probeH 0 (mkCol probeH 0 ⟨1, 2, 1⟩)
    (by decide) (by decide) (by decide) (by decide) (by decide) (by decide)

/-- Counterexample for C4: `P4` is a closed polygon whose leftmost
vertex is classified SPLIT, yet both probes find no colliding edge and
`splitmerge_points` returns the graph unchanged — no error of any kind
is signalled (the embedding of `splitmerge_points` is total: the source
has no raise on the empty-probe path). -/
theorem C4_counterexample_probe_miss_no_error :
    check_lu P4 0 = some Event.SPLIT ∧
    boundaryClosed P4 = true ∧
    get_intersects P4 0 = (none, none) ∧
    splitmerge_points P4 0 = P4 := by
  refine ⟨by decide, by decide, by decide, by decide⟩

/-- C4 as amended: a probe that finds no collision is skipped silently;
in particular when both probes come back empty the graph is returned
unchanged and the sweep continues without signalling any error. -/
theorem C4_amended_probe_miss_skips_silently (H : Digraph) (v : ℤ)
    (h : get_intersects H v = (none, none)) :
    splitmerge_points H v = H := by
  simp only [splitmerge_points, h]

/-- Witness for the amended C4 at the concrete polygon `P4`. -/
theorem C4_amended_probe_miss_skips_silently_witness :
    splitmerge_points P4 0 = P4 :=
  C4_amended_probe_miss_skips_silently P4 0 (by decide)

theorem walkLoop_closes (H : Digraph) (ps : ℤ) :
    ∀ (fuel : ℕ) (prev node : ℤ) (path0 path : List ℤ) (pOut : ℤ),
    walkLoop H ps fuel prev node path0 = some (path, pOut) →
    ∃ suf, path = path0 ++ suf ∧ suf ≠ [] ∧ suf.getLast? = some ps ∧
      ps ∉ suf.dropLast := by
  intro fuel
  induction fuel with
  | zero =>
    intro prev node path0 path pOut h
    simp [walkLoop] at h
  | succ fuel ih =>
    intro prev node path0 path pOut h
    rw [walkLoop] at h
    split at h
    · exact absurd h (by simp)
    · rename_i best hcb
      split at h
      · rename_i hb
        have hpath : path0 ++ [best] = path := (Prod.mk.injEq .. ▸ Option.some_inj.mp h).1
        have hbeq : best = ps := by simpa using hb
        refine ⟨[best], hpath.symm, by simp, by simp [hbeq], by simp⟩
      · rename_i hb
        obtain ⟨suf, hsuf, hne, hlast, hmem⟩ :=
          ih node best (path0 ++ [best]) path pOut h
        have hbne : best ≠ ps := by simpa using hb
        refine ⟨best :: suf, ?_, by simp, ?_, ?_⟩
        · rw [hsuf, List.append_assoc, List.singleton_append]
        · cases suf with
          | nil => exact absurd rfl hne
          | cons s0 stl => rw [List.getLast?_cons_cons]; exact hlast
        · cases suf with
          | nil => exact absurd rfl hne
          | cons s0 stl =>
            rw [List.dropLast_cons₂]
            intro hps
            rcases List.mem_cons.mp hps with hps | hps
            · exact hbne hps.symm
            · exact hmem hps

theorem cellStep_pairwise (H : Digraph) (fuel : ℕ) :
    ∀ (starts : List (ℤ × ℤ)) (st : Option (List (List ℤ) × ℤ))
      (res : List (List ℤ) × ℤ),
    starts.foldl (cellStep H fuel) st = some res →
    (∀ s, st = some s → pairwiseNewSets s.1) →
    pairwiseNewSets res.1 := by
  intro starts
  induction starts with
  | nil =>
    intro st res h hst
    simp only [List.foldl_nil] at h
    exact hst res h
  | cons sw tl ih =>
    intro st res h hst
    simp only [List.foldl_cons] at h
    refine ih (cellStep H fuel st sw) res h ?_
    intro s hs
    match st, hst with
    | none, _ => simp [cellStep] at hs
    | some (cells, prev), hst =>
      have hpw : pairwiseNewSets cells := hst (cells, prev) rfl
      simp only [cellStep] at hs
      split at hs
      · exact absurd hs (by simp)
      · rename_i path prevOut hwalk
        by_cases hany : cells.any (fun c => sameVertexSet c path)
        · rw [if_pos hany] at hs
          cases hs
          exact hpw
        · rw [if_neg hany] at hs
          cases hs
          unfold pairwiseNewSets
          rw [List.pairwise_append]
          refine ⟨hpw, by simp, ?_⟩
          intro a ha b hb
          rcases List.mem_singleton.mp hb with rfl
          have := List.any_eq_false.mp (Bool.not_eq_true _ ▸ hany) a ha
          simpa using this

/-- Counterexample for C5: on the bowtie graph (two boundary loops
sharing vertex 0) the walk from critical vertex 0 produces the recorded
cell `[2, 0, 3, 4, 0, 1]`, which repeats the interior vertex 0 — the
repeated id is not the implicit closing repeat, so this cell is not a
simple cycle. -/
theorem C5_counterexample_nonsimple_cell :
    append_cell bowtie 0 [] 20 = some [[2, 0, 3, 4, 0, 1]] ∧
    ¬ List.Nodup (List.dropLast [2, 0, 3, 4, 0, 1]) := by
  refine ⟨by decide, by decide⟩

/-- C5 as amended: every successful walk terminates by returning to its
own start vertex — the recorded path ends at the start vertex and
contains it exactly once — and a cell whose unordered vertex set was
already recorded is not added again (the recorded cells stay pairwise
distinct as vertex sets); however `append_cell` does not enforce
simplicity, and a produced cell can repeat an interior vertex. -/
theorem C5_amended_walk_closure_and_dedup :
    (∀ (H : Digraph) (ps : ℤ) (fuel : ℕ) (prev node : ℤ)
        (path : List ℤ) (pOut : ℤ),
      walkLoop H ps fuel prev node [] = some (path, pOut) →
      path ≠ [] ∧ path.getLast? = some ps ∧ ps ∉ path.dropLast) ∧
    (∀ (H : Digraph) (v : ℤ) (cells0 : List (List ℤ)) (fuel : ℕ)
        (out : List (List ℤ)),
      pairwiseNewSets cells0 →
      append_cell H v cells0 fuel = some out →
      pairwiseNewSets out) := by
  constructor
  · intro H ps fuel prev node path pOut h
    obtain ⟨suf, hsuf, hne, hlast, hmem⟩ :=
      walkLoop_closes H ps fuel prev node [] path pOut h
    rw [List.nil_append] at hsuf
    subst hsuf
    exact ⟨hne, hlast, hmem⟩
  · intro H v cells0 fuel out hpw h
    unfold append_cell at h
    cases hfold : (succsOf H v).foldl (cellStep H fuel) (some (cells0, v)) with
    | none => rw [hfold] at h; cases h
    | some res =>
      rw [hfold] at h
      have := cellStep_pairwise H fuel (succsOf H v) (some (cells0, v)) res hfold
        (by intro s hs; cases hs; exact hpw)
      obtain rfl : res.1 = out := by simpa using h
      exact this

/-- Witness for the amended C5: the bowtie walk starting at vertex 1
(the concrete walk of the counterexample) ends at its start vertex 1
and contains 1 exactly once, and the recorded cell list is pairwise
distinct as vertex sets. -/
theorem C5_amended_walk_closure_and_dedup_witness :
    (([2, 0, 3, 4, 0, 1] : List ℤ) ≠ [] ∧
      ([2, 0, 3, 4, 0, 1] : List ℤ).getLast? = some 1 ∧
      (1 : ℤ) ∉ ([2, 0, 3, 4, 0, 1] : List ℤ).dropLast) ∧
    pairwiseNewSets [[2, 0, 3, 4, 0, 1]] :=
  ⟨C5_amended_walk_closure_and_dedup.1 bowtie 1 20 0 1 [2, 0, 3, 4, 0, 1] 0
      (by decide),
   C5_amended_walk_closure_and_dedup.2 bowtie 0 [] 20 [[2, 0, 3, 4, 0, 1]]
      (by simp [pairwiseNewSets]) (by decide)⟩

theorem edgeWeight_mem (H : Digraph) (u v w : ℤ)
    (h : edgeWeight H u v = some w) : (⟨u, v, w⟩ : DEdge) ∈ H.edges := by
  unfold edgeWeight at h
  cases hf : H.edges.find? (fun e => e.src == u && e.tgt == v) with
  | none => rw [hf] at h; cases h
  | some e =>
    rw [hf] at h
    have hmem := List.mem_of_find?_eq_some hf
    have hp := List.find?_some hf
    simp only [Bool.and_eq_true, beq_iff_eq] at hp
    have hw : e.w = w := by simpa using h
    have he : e = ⟨u, v, w⟩ := by
      cases e
      simp_all
    rw [← he]
    exact hmem

theorem wAfterTries_bridge_iff (H : Digraph) (u0 u1 : ℤ)
    (hpair : ∀ e ∈ H.edges, (e.w = 3 ∨ e.w = 4) →
      bridgeW (edgeWeight H e.tgt e.src) = true) :
    bridgeW (wAfterTries H u0 u1) = true ↔
      (bridgeW (edgeWeight H u0 u1) = true ∨
        bridgeW (edgeWeight H u1 u0) = true) := by
  cases h10 : edgeWeight H u1 u0 with
  | none =>
    have hw : wAfterTries H u0 u1 = edgeWeight H u0 u1 := by
      unfold wAfterTries
      rw [h10]
    rw [hw]
    constructor
    · intro h
      exact Or.inl h
    · intro h
      rcases h with h | h
      · exact h
      · simp [bridgeW] at h
  | some x =>
    have hw : wAfterTries H u0 u1 = some x := by
      unfold wAfterTries
      rw [h10]
    rw [hw]
    constructor
    · intro h
      exact Or.inr h
    · intro h
      rcases h with h | h
      · cases h01 : edgeWeight H u0 u1 with
        | none => rw [h01] at h; simp [bridgeW] at h
        | some w =>
          rw [h01] at h
          have hw2 : w = 3 ∨ w = 4 := by
            simpa [bridgeW] using h
          have hmem := edgeWeight_mem H u0 u1 w h01
          have hb2 : bridgeW (edgeWeight H u1 u0) = true := hpair _ hmem hw2
          rw [h10] at hb2
          exact hb2
      · exact h

/-- C6: under the bridge-pair invariant (every edge tagged 3 or 4 has a
reverse edge also tagged 3 or 4 — exactly how `splitmerge_points`
creates them), `build_reebgraph` records an edge between two distinct
cells if and only if they share exactly two vertices and those two
vertices are joined by a bridge-tagged edge, and the recorded entry
stores exactly that shared vertex pair. -/
theorem C6_reeb_edges_iff (H : Digraph) (cells : List (List ℤ))
    (i j : ℕ) (s : List ℤ)
    (hpair : ∀ e ∈ H.edges, (e.w = 3 ∨ e.w = 4) →
      bridgeW (edgeWeight H e.tgt e.src) = true)
    (hi : i < cells.length) (hj : j < cells.length) (_hij : i ≠ j) :
    (i, j, s) ∈ build_reebgraph H cells ↔
      (s = sharedVerts (cells.getD i []) (cells.getD j []) ∧
       ∃ u0 u1, s = [u0, u1] ∧
         (bridgeW (edgeWeight H u0 u1) = true ∨
           bridgeW (edgeWeight H u1 u0) = true)) := by
  unfold build_reebgraph
  rw [List.mem_flatMap]
  constructor
  · rintro ⟨i', hi', hmem⟩
    rw [List.mem_flatMap] at hmem
    obtain ⟨j', hj', hmem⟩ := hmem
    split at hmem
    · rename_i u0 u1 hsv
      split at hmem
      · rename_i hbw
        have heq := List.mem_singleton.mp hmem
        have h1 : i = i' := congrArg Prod.fst heq
        have h2 : j = j' := congrArg Prod.fst (congrArg Prod.snd heq)
        have h3 : s = [u0, u1] := congrArg Prod.snd (congrArg Prod.snd heq)
        subst h1
        subst h2
        refine ⟨by rw [h3, hsv], u0, u1, h3, ?_⟩
        exact (wAfterTries_bridge_iff H u0 u1 hpair).mp hbw
      · cases hmem
    · cases hmem
  · rintro ⟨hs, u0, u1, hs2, hbr⟩
    refine ⟨i, List.mem_range.mpr hi, ?_⟩
    rw [List.mem_flatMap]
    refine ⟨j, List.mem_range.mpr hj, ?_⟩
    have hsv : sharedVerts (cells.getD i []) (cells.getD j []) = [u0, u1] :=
      hs ▸ hs2
    have hgoal : (i, j, s) ∈
        (if bridgeW (wAfterTries H u0 u1) = true then
          [(i, j, [u0, u1])] else ([] : List (ℕ × ℕ × List ℤ))) := by
      rw [if_pos ((wAfterTries_bridge_iff H u0 u1 hpair).mpr hbr)]
      exact List.mem_singleton.mpr (by rw [hs2])
    rw [hsv]
    exact hgoal

/-- Witness for C6: in `reebH` the two cells share exactly `{1, 4}`,
which is a bridge pair, so the Reeb graph records the edge `(0, 1)` with
that shared pair. -/
theorem C6_reeb_edges_iff_witness :
    (0, 1, [1, 4]) ∈ build_reebgraph reebH reebCells :=
  (C6_reeb_edges_iff reebH reebCells 0 1 [1, 4] (by decide) (by decide)
      (by decide) (by decide)).mpr
    ⟨by decide, 1, 4, rfl, Or.inl (by decide)⟩

/-- Counterexample for C7: an oracle exception is not caught — the
per-cell skeleton construction propagates it, and the loop over the
remaining cells aborts instead of substituting a centroid node and
continuing. -/
theorem C7_counterexample_oracle_raise_aborts :
    cell_tgraph (Except.error ()) [⟨0, 0⟩, ⟨4, 0⟩, ⟨0, 4⟩] =
      Except.error () ∧
    all_tgraphs [(Except.ok [], [⟨0, 0⟩, ⟨4, 0⟩, ⟨0, 4⟩]),
                 (Except.error (), [⟨0, 0⟩, ⟨1, 0⟩, ⟨0, 1⟩]),
                 (Except.ok [], [⟨2, 0⟩, ⟨3, 0⟩, ⟨2, 1⟩])] =
      Except.error () := by
  refine ⟨rfl, rfl⟩

theorem cell_tgraph_ok (s : List SkelArc) (pts : List Pt) :
    ∃ t, cell_tgraph (Except.ok s) pts = Except.ok t := by
  by_cases hemp : (skelElist s).isEmpty
  · exact ⟨⟨[(1, rg_centroid pts)], []⟩,
      by simp only [cell_tgraph, if_pos hemp]⟩
  · exact ⟨⟨(elistNodes (skelElist s)).map (fun i => (i, (s.getD i default).pt)),
        skelElist s⟩,
      by simp only [cell_tgraph, if_neg hemp]⟩

theorem all_tgraphs_go :
    ∀ (cellsIn : List (Except Unit (List SkelArc) × List Pt))
      (ts0 : List TGraph),
    (∀ c ∈ cellsIn, ∃ s, c.1 = Except.ok s) →
    ∃ ts, cellsIn.foldl tgraphStep (Except.ok ts0) = Except.ok ts ∧
      ts.length = ts0.length + cellsIn.length := by
  intro cellsIn
  induction cellsIn with
  | nil =>
    intro ts0 _
    exact ⟨ts0, rfl, by simp⟩
  | cons c tl ih =>
    intro ts0 hok
    obtain ⟨s, hs⟩ := hok c (List.mem_cons_self _ _)
    obtain ⟨t, ht⟩ := cell_tgraph_ok s c.2
    have ht2 : cell_tgraph c.1 c.2 = Except.ok t := by
      rw [hs]
      exact ht
    have hstep : tgraphStep (Except.ok ts0) c = Except.ok (ts0 ++ [t]) := by
      simp only [tgraphStep, ht2]
    simp only [List.foldl_cons, hstep]
    obtain ⟨ts, hts, hlen⟩ := ih (ts0 ++ [t])
      (fun d hd => hok d (List.mem_cons_of_mem _ hd))
    refine ⟨ts, hts, ?_⟩
    rw [hlen]
    simp only [List.length_append, List.length_cons, List.length_nil]
    omega

/-- C7 as amended: when the oracle returns a result with no
epsilon-matched ridges (in particular, no ridges at all), the builder
substitutes the single-node subgraph at the cell's centroid; and as long
as no cell's oracle call raises, the loop completes over all cells.  An
oracle exception, however, is not caught and aborts the loop. -/
theorem C7_amended_fallback_only_for_empty_ridges
    (skels : List SkelArc) (cellPts : List Pt)
    (hno : skelElist skels = [])
    (cellsIn : List (Except Unit (List SkelArc) × List Pt))
    (hok : ∀ c ∈ cellsIn, ∃ s, c.1 = Except.ok s) :
    cell_tgraph (Except.ok skels) cellPts =
      Except.ok ⟨[(1, rg_centroid cellPts)], []⟩ ∧
    skelElist ([] : List SkelArc) = [] ∧
    ∃ ts, all_tgraphs cellsIn = Except.ok ts ∧
      ts.length = cellsIn.length := by
  refine ⟨?_, by decide, ?_⟩
  · simp only [cell_tgraph, hno]
    rfl
  · obtain ⟨ts, hts, hlen⟩ := all_tgraphs_go cellsIn [] hok
    exact ⟨ts, hts, by simpa using hlen⟩

/-- Witness for the amended C7: a raising-free run over two cells, the
first with an empty oracle answer, which gets the centroid node. -/
theorem C7_amended_fallback_only_for_empty_ridges_witness :
    (cell_tgraph (Except.ok []) [⟨0, 0⟩, ⟨4, 0⟩, ⟨0, 4⟩] =
      Except.ok ⟨[(1, rg_centroid [⟨0, 0⟩, ⟨4, 0⟩, ⟨0, 4⟩])], []⟩ ∧
    skelElist ([] : List SkelArc) = [] ∧
    ∃ ts, all_tgraphs [(Except.ok [], [⟨0, 0⟩, ⟨4, 0⟩, ⟨0, 4⟩]),
        (Except.ok [], [⟨2, 0⟩, ⟨3, 0⟩, ⟨2, 1⟩])] = Except.ok ts ∧
      ts.length = 2) :=
  C7_amended_fallback_only_for_empty_ridges [] [⟨0, 0⟩, ⟨4, 0⟩, ⟨0, 4⟩]
    (by decide)
    [(Except.ok [], [⟨0, 0⟩, ⟨4, 0⟩, ⟨0, 4⟩]),
     (Except.ok [], [⟨2, 0⟩, ⟨3, 0⟩, ⟨2, 1⟩])]
    (by
      intro c hc
      rcases List.mem_cons.mp hc with rfl | hc
      · exact ⟨[], rfl⟩
      · rcases List.mem_singleton.mp hc with rfl
        exact ⟨[], rfl⟩)

/-- Counterexample for C8: at theta = 0 (rotation entries `(1, 0)`, an
exact identity on the coordinates) the sweep of the axis-aligned square
raises the classification error at its first event vertex — a vertical
edge puts a neighbor at the same x — so no OPEN/CLOSE events and no
cell are produced; this happens for the square exactly as listed in the
specification and for its clockwise orientation alike. -/
theorem C8_counterexample_theta_zero_raises :
    rotate_graph squareSpec 1 0 = squareSpec ∧
    check_lu squareSpec 0 = none ∧
    line_sweep_ec squareSpec 1 0 20 = none ∧
    line_sweep_ec squareCW 1 0 20 = none := by
  refine ⟨by decide, by decide, by decide, by decide⟩

/-- C8 as amended: the square raises the classification error at
theta = 0, but under the genuine rotation with cos = 3/5 and sin = 4/5
the clockwise square produces exactly one OPEN event, exactly one CLOSE
event (the other two vertices are inflections), and exactly one cell
whose vertex set is the whole square. -/
theorem C8_amended_tilted_sweep_of_square :
    line_sweep_ec squareCW (3 / 5) (4 / 5) 20 =
      some ([(0, Event.OPEN), (1, Event.INFLECTION), (3, Event.INFLECTION),
             (2, Event.CLOSE)], [[2, 1, 0, 3]]) ∧
    (([(0, Event.OPEN), (1, Event.INFLECTION), (3, Event.INFLECTION),
        (2, Event.CLOSE)] : List (ℤ × Event)).filter
      (fun pe => pe.2 == Event.OPEN)).length = 1 ∧
    (([(0, Event.OPEN), (1, Event.INFLECTION), (3, Event.INFLECTION),
        (2, Event.CLOSE)] : List (ℤ × Event)).filter
      (fun pe => pe.2 == Event.CLOSE)).length = 1 ∧
    sameVertexSet [2, 1, 0, 3] [0, 1, 2, 3] = true ∧
    (3 / 5 : ℚ) ^ 2 + (4 / 5 : ℚ) ^ 2 = 1 := by
  refine ⟨by decide, by decide, by decide, by decide, by decide⟩

/-- C9: rotating a graph by theta and then by −theta restores every
node's coordinates exactly (the embedding computes in exact real
arithmetic, so the float-tolerance claim holds with zero error); the
rotation is a pure map on a fresh list, leaving its input untouched. -/
theorem C9_rotate_graph_roundtrip (G : List (ℤ × ℝ × ℝ)) (θ : ℝ) :
    rotate_graphP (rotate_graphP G (Real.cos θ) (Real.sin θ))
      (Real.cos (-θ)) (Real.sin (-θ)) = G := by
  have hcs : Real.sin θ ^ 2 + Real.cos θ ^ 2 = 1 := Real.sin_sq_add_cos_sq θ
  unfold rotate_graphP
  rw [List.map_map]
  have hid : ∀ q : ℤ × ℝ × ℝ,
      ((fun q : ℤ × ℝ × ℝ =>
          (q.1, rowMul q.2 (make_rot_matrixP (Real.cos (-θ)) (Real.sin (-θ))))) ∘
        (fun q : ℤ × ℝ × ℝ =>
          (q.1, rowMul q.2 (make_rot_matrixP (Real.cos θ) (Real.sin θ))))) q
        = q := by
    intro q
    obtain ⟨i, x, y⟩ := q
    simp only [Function.comp_apply, rowMul, make_rot_matrixP,
      Real.cos_neg, Real.sin_neg, Prod.mk.injEq]
    refine ⟨trivial, ?_, ?_⟩
    · linear_combination x * hcs
    · linear_combination y * hcs
  calc G.map _ = G.map id := List.map_congr_left (fun q _ => hid q)
    _ = G := List.map_id G

theorem getPt_append_old (H : Digraph) (ai : ℤ) (p : Pt) (E : List DEdge)
    (u : ℤ) (hu : u ∈ nodeIds H) :
    getPt ⟨H.nodes ++ [(ai, p)], E⟩ u = getPt H u := by
  unfold getPt
  obtain ⟨q, hq, hq1⟩ := List.mem_map.mp hu
  have hsome : (H.nodes.find? (fun q => q.1 == u)).isSome := by
    rw [List.find?_isSome]
    exact ⟨q, hq, by simp [hq1]⟩
  cases hf : H.nodes.find? (fun q => q.1 == u) with
  | none => rw [hf] at hsome; cases hsome
  | some q2 =>
    have happ : (H.nodes ++ [(ai, p)]).find? (fun q => q.1 == u) = some q2 := by
      rw [List.find?_append, hf]
      rfl
    simp only [happ, hf]

theorem getPt_append_new (H : Digraph) (ai : ℤ) (p : Pt) (E : List DEdge)
    (hai : ai ∉ nodeIds H) :
    getPt ⟨H.nodes ++ [(ai, p)], E⟩ ai = p := by
  unfold getPt
  have hnone : H.nodes.find? (fun q => q.1 == ai) = none := by
    rw [List.find?_eq_none]
    intro q hq
    simp only [beq_iff_eq]
    intro hq1
    exact hai (List.mem_map.mpr ⟨q, hq, hq1⟩)
  have happ : (H.nodes ++ [(ai, p)]).find? (fun q => q.1 == ai) = some (ai, p) := by
    rw [List.find?_append, hnone, Option.none_or]
    exact List.find?_cons_of_pos _ (by simp)
  simp only [happ]

theorem mem_of_mem_removeEdgePair (edges : List DEdge) (u v : ℤ) (e : DEdge)
    (h : e ∈ removeEdgePair edges u v) : e ∈ edges :=
  (List.mem_filter.mp h).1

/-- The facts about a collision record that the surgery relies on: its
edge endpoints are present nodes distinct from `v`, the collided edge is
a boundary edge (given the vertical-bridge invariant), and the collision
point lies on the probe line through `v`. -/
theorem collision_facts (H : Digraph) (v : ℤ) (c : Collision)
    (hclosed : ∀ e ∈ H.edges, e.src ∈ nodeIds H ∧ e.tgt ∈ nodeIds H)
    (hvert : ∀ e ∈ H.edges, ¬(e.w = 1 ∨ e.w = 2) →
      (getPt H e.src).x = (getPt H e.tgt).x)
    (hc : c ∈ collisionsAt H v) :
    c.e1 ∈ nodeIds H ∧ c.e2 ∈ nodeIds H ∧ c.e1 ≠ v ∧ c.e2 ≠ v ∧
    (c.weight = 1 ∨ c.weight = 2) ∧ c.pt.x = (getPt H v).x := by
  unfold collisionsAt at hc
  rw [List.mem_filterMap] at hc
  obtain ⟨e, he, hsome⟩ := hc
  by_cases hch : check_edge H v e.src e.tgt = true
  · rw [if_pos hch] at hsome
    obtain rfl : mkCol H v e = c := Option.some_inj.mp hsome
    have hst := (check_edge_iff H v e).mp hch
    have hxne : (getPt H e.src).x ≠ (getPt H e.tgt).x := by
      rcases hst with h | h
      · exact ne_of_gt (lt_trans h.2 h.1)
      · exact ne_of_lt (lt_trans h.1 h.2)
    have hsx : (getPt H e.src).x ≠ (getPt H v).x := by
      rcases hst with h | h
      · exact ne_of_gt h.1
      · exact ne_of_lt h.1
    have htx : (getPt H e.tgt).x ≠ (getPt H v).x := by
      rcases hst with h | h
      · exact ne_of_lt h.2
      · exact ne_of_gt h.2
    refine ⟨(hclosed e he).1, (hclosed e he).2, ?_, ?_, ?_, ?_⟩
    · intro hev
      exact hsx (by rw [show (mkCol H v e).e1 = e.src from rfl] at hev; rw [hev])
    · intro hev
      exact htx (by rw [show (mkCol H v e).e2 = e.tgt from rfl] at hev; rw [hev])
    · by_contra hne
      exact hxne (hvert e he (by simpa [mkCol] using hne))
    · simp [mkCol, intersect_vertical_line]
  · rw [if_neg hch] at hsome
    cases hsome

theorem get_intersects_fst_mem (H : Digraph) (v : ℤ) (a : Collision)
    (h : (get_intersects H v).1 = some a) : a ∈ collisionsAt H v := by
  unfold get_intersects at h
  by_cases hc : (collisionsAt H v).isEmpty
  · simp only [if_pos hc] at h
    cases h
  · simp only [if_neg hc] at h
    obtain ⟨h1, _, _⟩ := pickMin_go (getPt H v).y _ none a h
    rcases h1 with h1 | h1
    · cases h1
    · exact (List.mem_filter.mp h1).1

theorem get_intersects_snd_mem (H : Digraph) (v : ℤ) (b : Collision)
    (h : (get_intersects H v).2 = some b) : b ∈ collisionsAt H v := by
  unfold get_intersects at h
  by_cases hc : (collisionsAt H v).isEmpty
  · simp only [if_pos hc] at h
    cases h
  · simp only [if_neg hc] at h
    obtain ⟨h1, _, _⟩ := pickMax_go (getPt H v).y _ none b h
    rcases h1 with h1 | h1
    · cases h1
    · exact (List.mem_filter.mp h1).1

/-- One above-surgery preserves the invariants the probes rely on: ids
grow by the fresh id, old points are untouched, edges stay closed over
the nodes, and every non-boundary edge stays vertical (the new bridge
pair joins `v` to a point with `v`'s x-coordinate). -/
theorem surgery_above_preserves (H : Digraph) (v : ℤ) (a : Collision)
    (hv : v ∈ nodeIds H)
    (he1 : a.e1 ∈ nodeIds H) (he2 : a.e2 ∈ nodeIds H)
    (he1v : a.e1 ≠ v) (he2v : a.e2 ≠ v)
    (hw : a.weight = 1 ∨ a.weight = 2)
    (hpt : a.pt.x = (getPt H v).x)
    (hclosed : ∀ e ∈ H.edges, e.src ∈ nodeIds H ∧ e.tgt ∈ nodeIds H)
    (hvert : ∀ e ∈ H.edges, ¬(e.w = 1 ∨ e.w = 2) →
      (getPt H e.src).x = (getPt H e.tgt).x) :
    nodeIds (splitmerge_above H v a) = nodeIds H ++ [maxId H.nodes + 1] ∧
    (∀ u ∈ nodeIds H, getPt (splitmerge_above H v a) u = getPt H u) ∧
    (∀ e ∈ (splitmerge_above H v a).edges,
      e.src ∈ nodeIds (splitmerge_above H v a) ∧
      e.tgt ∈ nodeIds (splitmerge_above H v a)) ∧
    (∀ e ∈ (splitmerge_above H v a).edges, ¬(e.w = 1 ∨ e.w = 2) →
      (getPt (splitmerge_above H v a) e.src).x =
        (getPt (splitmerge_above H v a) e.tgt).x) := by
  obtain ⟨hai, habove, _⟩ := splitmerge_frame H v a hv he1 he2 he1v he2v hclosed
  rw [habove]
  have hids : nodeIds
      (⟨H.nodes ++ [(maxId H.nodes + 1, a.pt)],
        removeEdgePair H.edges a.e1 a.e2 ++
          [⟨maxId H.nodes + 1, v, 3⟩, ⟨v, maxId H.nodes + 1, 4⟩,
           ⟨a.e1, maxId H.nodes + 1, a.weight⟩,
           ⟨maxId H.nodes + 1, a.e2, a.weight⟩]⟩ : Digraph) =
      nodeIds H ++ [maxId H.nodes + 1] := by
    simp [nodeIds]
  refine ⟨hids, ?_, ?_, ?_⟩
  · intro u hu
    exact getPt_append_old H (maxId H.nodes + 1) a.pt _ u hu
  · intro e he
    rw [hids]
    rcases List.mem_append.mp he with he | he
    · have hmem := mem_of_mem_removeEdgePair _ _ _ _ he
      exact ⟨List.mem_append_left _ (hclosed e hmem).1,
        List.mem_append_left _ (hclosed e hmem).2⟩
    · simp only [List.mem_cons, List.not_mem_nil, or_false] at he
      rcases he with rfl | rfl | rfl | rfl
      · exact ⟨List.mem_append_right _ (List.mem_singleton.mpr rfl),
          List.mem_append_left _ hv⟩
      · exact ⟨List.mem_append_left _ hv,
          List.mem_append_right _ (List.mem_singleton.mpr rfl)⟩
      · exact ⟨List.mem_append_left _ he1,
          List.mem_append_right _ (List.mem_singleton.mpr rfl)⟩
      · exact ⟨List.mem_append_right _ (List.mem_singleton.mpr rfl),
          List.mem_append_left _ he2⟩
  · intro e he hne
    rcases List.mem_append.mp he with he | he
    · have hmem := mem_of_mem_removeEdgePair _ _ _ _ he
      rw [getPt_append_old H _ _ _ _ (hclosed e hmem).1,
        getPt_append_old H _ _ _ _ (hclosed e hmem).2]
      exact hvert e hmem hne
    · simp only [List.mem_cons, List.not_mem_nil, or_false] at he
      rcases he with rfl | rfl | rfl | rfl
      · rw [getPt_append_new H _ _ _ hai, getPt_append_old H _ _ _ _ hv]
        exact hpt
      · rw [getPt_append_new H _ _ _ hai, getPt_append_old H _ _ _ _ hv]
        exact hpt.symm
      · exact absurd hw hne
      · exact absurd hw hne

/-- The same preservation statement for the below-surgery. -/
theorem surgery_below_preserves (H : Digraph) (v : ℤ) (b : Collision)
    (hv : v ∈ nodeIds H)
    (he1 : b.e1 ∈ nodeIds H) (he2 : b.e2 ∈ nodeIds H)
    (he1v : b.e1 ≠ v) (he2v : b.e2 ≠ v)
    (hw : b.weight = 1 ∨ b.weight = 2)
    (hpt : b.pt.x = (getPt H v).x)
    (hclosed : ∀ e ∈ H.edges, e.src ∈ nodeIds H ∧ e.tgt ∈ nodeIds H)
    (hvert : ∀ e ∈ H.edges, ¬(e.w = 1 ∨ e.w = 2) →
      (getPt H e.src).x = (getPt H e.tgt).x) :
    nodeIds (splitmerge_below H v b) = nodeIds H ++ [maxId H.nodes + 1] ∧
    (∀ u ∈ nodeIds H, getPt (splitmerge_below H v b) u = getPt H u) ∧
    (∀ e ∈ (splitmerge_below H v b).edges,
      e.src ∈ nodeIds (splitmerge_below H v b) ∧
      e.tgt ∈ nodeIds (splitmerge_below H v b)) ∧
    (∀ e ∈ (splitmerge_below H v b).edges, ¬(e.w = 1 ∨ e.w = 2) →
      (getPt (splitmerge_below H v b) e.src).x =
        (getPt (splitmerge_below H v b) e.tgt).x) := by
  obtain ⟨hai, _, hbelow⟩ := splitmerge_frame H v b hv he1 he2 he1v he2v hclosed
  rw [hbelow]
  have hids : nodeIds
      (⟨H.nodes ++ [(maxId H.nodes + 1, b.pt)],
        removeEdgePair H.edges b.e1 b.e2 ++
          [⟨v, maxId H.nodes + 1, 3⟩, ⟨maxId H.nodes + 1, v, 4⟩,
           ⟨b.e1, maxId H.nodes + 1, b.weight⟩,
           ⟨maxId H.nodes + 1, b.e2, b.weight⟩]⟩ : Digraph) =
      nodeIds H ++ [maxId H.nodes + 1] := by
    simp [nodeIds]
  refine ⟨hids, ?_, ?_, ?_⟩
  · intro u hu
    exact getPt_append_old H (maxId H.nodes + 1) b.pt _ u hu
  · intro e he
    rw [hids]
    rcases List.mem_append.mp he with he | he
    · have hmem := mem_of_mem_removeEdgePair _ _ _ _ he
      exact ⟨List.mem_append_left _ (hclosed e hmem).1,
        List.mem_append_left _ (hclosed e hmem).2⟩
    · simp only [List.mem_cons, List.not_mem_nil, or_false] at he
      rcases he with rfl | rfl | rfl | rfl
      · exact ⟨List.mem_append_left _ hv,
          List.mem_append_right _ (List.mem_singleton.mpr rfl)⟩
      · exact ⟨List.mem_append_right _ (List.mem_singleton.mpr rfl),
          List.mem_append_left _ hv⟩
      · exact ⟨List.mem_append_left _ he1,
          List.mem_append_right _ (List.mem_singleton.mpr rfl)⟩
      · exact ⟨List.mem_append_right _ (List.mem_singleton.mpr rfl),
          List.mem_append_left _ he2⟩
  · intro e he hne
    rcases List.mem_append.mp he with he | he
    · have hmem := mem_of_mem_removeEdgePair _ _ _ _ he
      rw [getPt_append_old H _ _ _ _ (hclosed e hmem).1,
        getPt_append_old H _ _ _ _ (hclosed e hmem).2]
      exact hvert e hmem hne
    · simp only [List.mem_cons, List.not_mem_nil, or_false] at he
      rcases he with rfl | rfl | rfl | rfl
      · rw [getPt_append_new H _ _ _ hai, getPt_append_old H _ _ _ _ hv]
        exact hpt.symm
      · rw [getPt_append_new H _ _ _ hai, getPt_append_old H _ _ _ _ hv]
        exact hpt
      · exact absurd hw hne
      · exact absurd hw hne

/-- The sweep invariant behind C2 is preserved by the whole split/merge
step: after `splitmerge_points`, `v` is still a node, every edge still
joins present nodes, and every non-boundary edge is still vertical —
new bridge edges join `v` to a collision point sharing `v`'s
x-coordinate, and the split halves inherit a boundary weight. -/
theorem splitmerge_points_preserves_vertical (H : Digraph) (v : ℤ)
    (hv : v ∈ nodeIds H)
    (hclosed : ∀ e ∈ H.edges, e.src ∈ nodeIds H ∧ e.tgt ∈ nodeIds H)
    (hvert : ∀ e ∈ H.edges, ¬(e.w = 1 ∨ e.w = 2) →
      (getPt H e.src).x = (getPt H e.tgt).x) :
    v ∈ nodeIds (splitmerge_points H v) ∧
    (∀ e ∈ (splitmerge_points H v).edges,
      e.src ∈ nodeIds (splitmerge_points H v) ∧
      e.tgt ∈ nodeIds (splitmerge_points H v)) ∧
    (∀ e ∈ (splitmerge_points H v).edges, ¬(e.w = 1 ∨ e.w = 2) →
      (getPt (splitmerge_points H v) e.src).x =
        (getPt (splitmerge_points H v) e.tgt).x) := by
  cases h1 : (get_intersects H v).1 with
  | none =>
    cases h2 : (get_intersects H v).2 with
    | none =>
      have hsp : splitmerge_points H v = H := by
        simp only [splitmerge_points, h1, h2]
      rw [hsp]
      exact ⟨hv, hclosed, hvert⟩
    | some b =>
      have hsp : splitmerge_points H v = splitmerge_below H v b := by
        simp only [splitmerge_points, h1, h2]
      obtain ⟨hb1, hb2, hb1v, hb2v, hbw, hbpt⟩ :=
        collision_facts H v b hclosed hvert (get_intersects_snd_mem H v b h2)
      obtain ⟨hids, _, hcl, hvt⟩ :=
        surgery_below_preserves H v b hv hb1 hb2 hb1v hb2v hbw hbpt hclosed hvert
      rw [hsp]
      exact ⟨by rw [hids]; exact List.mem_append_left _ hv, hcl, hvt⟩
  | some a =>
    obtain ⟨ha1, ha2, ha1v, ha2v, haw, hapt⟩ :=
      collision_facts H v a hclosed hvert (get_intersects_fst_mem H v a h1)
    obtain ⟨hidsA, hgpA, hclA, hvtA⟩ :=
      surgery_above_preserves H v a hv ha1 ha2 ha1v ha2v haw hapt hclosed hvert
    have hv1 : v ∈ nodeIds (splitmerge_above H v a) := by
      rw [hidsA]
      exact List.mem_append_left _ hv
    cases h2 : (get_intersects H v).2 with
    | none =>
      have hsp : splitmerge_points H v = splitmerge_above H v a := by
        simp only [splitmerge_points, h1, h2]
      rw [hsp]
      exact ⟨hv1, hclA, hvtA⟩
    | some b =>
      have hsp : splitmerge_points H v =
          splitmerge_below (splitmerge_above H v a) v b := by
        simp only [splitmerge_points, h1, h2]
      obtain ⟨hb1, hb2, hb1v, hb2v, hbw, hbpt⟩ :=
        collision_facts H v b hclosed hvert (get_intersects_snd_mem H v b h2)
      have hb1A : b.e1 ∈ nodeIds (splitmerge_above H v a) := by
        rw [hidsA]
        exact List.mem_append_left _ hb1
      have hb2A : b.e2 ∈ nodeIds (splitmerge_above H v a) := by
        rw [hidsA]
        exact List.mem_append_left _ hb2
      have hbptA : b.pt.x = (getPt (splitmerge_above H v a) v).x := by
        rw [hgpA v hv]
        exact hbpt
      obtain ⟨hidsB, _, hclB, hvtB⟩ :=
        surgery_below_preserves (splitmerge_above H v a) v b hv1 hb1A hb2A
          hb1v hb2v hbw hbptA hclA hvtA
      rw [hsp]
      exact ⟨by rw [hidsB]; exact List.mem_append_left _ hv1, hclB, hvtB⟩

end Bdc
